import Mathlib

/-!
Verification of the deterministic study planner (`agentic_study_agent.py`).

Shallow embedding conventions:
* Python floats are modelled as rationals (`ℚ`); Python's `round(x, 2)`
  (round-half-to-even at two decimals) is modelled by `round2`.
* Calendar dates are modelled by their day ordinal (`ℤ`).  The source
  compares ISO `YYYY-MM-DD` strings lexicographically, which agrees with
  chronological order, so `<` on ordinals is a faithful model.  The string
  rendering of a date (used only inside free-text notes) is modelled by
  `isoStr`.
* A session's `date` field is either a concrete date or the sentinel
  `"UNSCHEDULED"` (the source also guards against `None`/`""`, which are
  collapsed into the same sentinel constructor since the planner never
  produces them).
* Dictionaries with a fixed key set become structures; absent optional
  keys become `Option` fields (e.g. a syllabus item's `topic`/`name`).
-/

namespace StudyAgent

/-- Python's `round` to an integer: round half to even (banker's rounding). -/
def roundHalfEven (x : ℚ) : ℤ :=
  if x - ⌊x⌋ < 1/2 then ⌊x⌋
  else if 1/2 < x - ⌊x⌋ then ⌊x⌋ + 1
  else if ⌊x⌋ % 2 = 0 then ⌊x⌋ else ⌊x⌋ + 1

/-- Python's `round(x, 2)`: round to two decimal places, half to even. -/
def round2 (x : ℚ) : ℚ := (roundHalfEven (100 * x) : ℚ) / 100

/-- A rational expressible with two decimal places. -/
def TwoDec (x : ℚ) : Prop := ∃ k : ℤ, x = (k : ℚ) / 100

/-- Python's binary `min` on numbers (an executable synonym of `min` on
`ℚ`, kept separate so concrete plans evaluate inside the kernel). -/
def pymin (a b : ℚ) : ℚ := if a ≤ b then a else b

/-- A plan entry's `date` field: a concrete calendar day (ordinal) or the
`"UNSCHEDULED"` sentinel (also covering the `None`/`""` cases the source
guards against). -/
inductive PDate where
  | unscheduled : PDate
  | day : ℤ → PDate
deriving DecidableEq

/-- Rendering of a day ordinal inside free-text notes (models
`date.isoformat()`; the concrete digits never matter, only injectivity). -/
def isoStr (n : ℤ) : String := toString n

/-- Rendering of a `date` field (models `str(m.get("date"))`). -/
def pdateStr : PDate → String
  | .unscheduled => "UNSCHEDULED"
  | .day n => isoStr n

/-- One entry of `plan.json`: keys `date`, `topic`, `duration_hours`,
`status`, `notes`. -/
structure Session where
  date : PDate
  topic : String
  duration_hours : ℚ
  status : String
  notes : String
deriving DecidableEq

/-- One entry of `syllabus.json`; optional keys are `Option` fields. -/
structure SyllabusItem where
  topic : Option String
  name : Option String
  est_hours : Option ℚ
  hours : Option ℚ
  priority : Option String
deriving DecidableEq

/-- Normalized topic state built by `normalize_syllabus`. -/
structure Topic where
  topic : String
  remaining : ℚ
  priority : String
  weight : ℤ
deriving DecidableEq

/-- Python's `a or b` on the two optional string fields (`None` and `""`
are falsy). -/
def orFalsy (a b : Option String) : Option String :=
  match a with
  | some s => if s = "" then b else some s
  | none => b

/-- A falsy optional string field: absent or the empty string. -/
def falsyS : Option String → Prop
  | none => True
  | some s => s = ""

/-- Effort estimate of an item: `float(item.get("est_hours", item.get("hours", 1)))`. -/
def itemEst (it : SyllabusItem) : ℚ := it.est_hours.getD (it.hours.getD 1)

/-- Python's `str.lower()`, as a structural map over the characters (the
core library's `String.toLower` is extensionally the same function). -/
def pyLower (s : String) : String := ⟨s.data.map Char.toLower⟩

/-- An ASCII whitespace character, as stripped by Python's `str.strip()`. -/
def isPyWS (c : Char) : Bool := c == ' ' || c == '\t' || c == '\n' || c == '\r'

/-- Python's `str.strip()`: drop leading and trailing whitespace. -/
def pyStrip (s : String) : String :=
  ⟨((s.data.dropWhile isPyWS).reverse.dropWhile isPyWS).reverse⟩

/-- Normalized priority string: `str(item.get("priority", "medium")).lower()`. -/
def prioOf (it : SyllabusItem) : String := pyLower (it.priority.getD "medium")

/-- Priority weight: `{"high": 3, "medium": 2, "low": 1}.get(priority, 2)`. -/
def weightOf (p : String) : ℤ :=
  if p = "high" then 3 else if p = "medium" then 2 else if p = "low" then 1 else 2

/-- One iteration of the `for item in syllabus` body of `normalize_syllabus`:
`None` means the item is skipped (`continue`). -/
def normTopic (it : SyllabusItem) : Option Topic :=
  match orFalsy it.topic it.name with
  | none => none
  | some t =>
    if t = "" then none
    else some ⟨t, itemEst it, prioOf it, weightOf (prioOf it)⟩

/-- The sort relation of `normalized.sort(key=lambda x: (-x["weight"], x["topic"]))`:
lexicographic on `(-weight, topic)`. -/
def topicLE (a b : Topic) : Prop :=
  b.weight < a.weight ∨ (a.weight = b.weight ∧ ¬ b.topic < a.topic)

instance : DecidableRel topicLE := fun a b => by
  unfold topicLE; infer_instance

/-- `normalize_syllabus`: keep items with a truthy topic name, then sort by
descending weight with ties broken by ascending name (stable). -/
def normalize_syllabus (syllabus : List SyllabusItem) : List Topic :=
  (syllabus.filterMap normTopic).insertionSort topicLE

/-- Error kinds raised by `generate_plan` (both are `ValueError` in the
source; the spec names the date-range one `InvalidDateRange`). -/
inductive GenError where
  | invalidDateRange : GenError
  | noDaysAvailable : GenError
deriving DecidableEq

/-- State threaded through the allocation `while` loop of one day. -/
structure GState where
  plan : List Session
  topics : List Topic
  cti : ℕ
  capleft : ℚ
deriving DecidableEq

/-- State threaded from day to day of `generate_plan`. -/
structure DayState where
  plan : List Session
  topics : List Topic
  cti : ℕ
deriving DecidableEq

/-- The `for i in range(num_topics)` search for the next topic with
remaining effort and a positive allocation (`continue` on `alloc <= 0`).
`i` is the current round-robin offset, `k` the number of offsets still to
try; returns the topic's index, the topic, and the unrounded allocation. -/
def findTopic (mc capleft : ℚ) (topics : List Topic) (cti : ℕ) :
    ℕ → ℕ → Option (ℕ × Topic × ℚ)
  | _, 0 => none
  | i, k + 1 =>
    match topics.get? ((cti + i) % topics.length) with
    | none => none
    | some t =>
      if 0 < t.remaining then
        if 0 < pymin t.remaining (pymin (pymin mc capleft) capleft) then
          some ((cti + i) % topics.length, t,
            pymin t.remaining (pymin (pymin mc capleft) capleft))
        else findTopic mc capleft topics cti (i + 1) k
      else findTopic mc capleft topics cti (i + 1) k

/-- The allocation `while` loop of one day.  The fuel is
`num_topics * 4 - attempts` (`attempts` counts successful allocations);
`alloc` is rounded to two decimals, subtracted (with re-rounding) from the
topic's remaining effort and the day's capacity, and the round-robin index
moves past the chosen topic. -/
def allocLoop (mc : ℚ) (date : PDate) : ℕ → GState → GState
  | 0, st => st
  | fuel + 1, st =>
    if 0 < st.capleft ∧ ∃ t ∈ st.topics, 0 < t.remaining then
      match findTopic mc st.capleft st.topics st.cti 0 st.topics.length with
      | none => st
      | some (idx, t, alloc) =>
        allocLoop mc date fuel
          { plan := st.plan ++ [⟨date, t.topic, round2 alloc, "pending", ""⟩]
            topics := st.topics.set idx
              { t with remaining := round2 (t.remaining - round2 alloc) }
            cti := (idx + 1) % st.topics.length
            capleft := round2 (st.capleft - round2 alloc) }
    else st

/-- The periodic review slot of a day: on a review day, reserve up to one
hour (less if the day's budget is smaller); returns the extended plan and
the remaining capacity. -/
def reviewStep (re : ℕ) (b : ℚ) (date : PDate) (plan : List Session)
    (day_offset : ℕ) : List Session × ℚ :=
  if (day_offset + 1) % re = 0 then
    if 0 < pymin 1 b then
      (plan ++ [⟨date, "Review & Practice", round2 (pymin 1 b), "pending",
         "Periodic review day"⟩],
       b - pymin 1 b)
    else (plan, b)
  else (plan, b)

/-- The body of `for day_offset in range(days)`: optional review slot, then
round-robin allocation (skipped entirely when no topic has remaining
effort, as by the `continue` in the source). -/
def processDay (re : ℕ) (mc b : ℚ) (start : ℤ) (st : DayState) (day_offset : ℕ) :
    DayState :=
  if ∃ t ∈ st.topics, 0 < t.remaining then
    ⟨(allocLoop mc (PDate.day (start + day_offset)) (st.topics.length * 4)
        ⟨(reviewStep re b (PDate.day (start + day_offset)) st.plan day_offset).1,
         st.topics, st.cti,
         (reviewStep re b (PDate.day (start + day_offset)) st.plan day_offset).2⟩).plan,
     (allocLoop mc (PDate.day (start + day_offset)) (st.topics.length * 4)
        ⟨(reviewStep re b (PDate.day (start + day_offset)) st.plan day_offset).1,
         st.topics, st.cti,
         (reviewStep re b (PDate.day (start + day_offset)) st.plan day_offset).2⟩).topics,
     (allocLoop mc (PDate.day (start + day_offset)) (st.topics.length * 4)
        ⟨(reviewStep re b (PDate.day (start + day_offset)) st.plan day_offset).1,
         st.topics, st.cti,
         (reviewStep re b (PDate.day (start + day_offset)) st.plan day_offset).2⟩).cti⟩
  else
    ⟨(reviewStep re b (PDate.day (start + day_offset)) st.plan day_offset).1,
     st.topics, st.cti⟩

/-- The overflow note of `generate_plan`'s `"UNSCHEDULED"` entries. -/
def overflowNote : String :=
  "Not enough days before exam; increase daily hours or start earlier."

/-- The day-by-day fold of `generate_plan` over `range(days)`, starting
from the empty plan, the normalized topics and round-robin index 0. -/
def genFin (re : ℕ) (mc : ℚ) (syllabus : List SyllabusItem)
    (start_date exam_date : ℤ) (daily_hours : ℚ) : DayState :=
  (List.range (exam_date - start_date).toNat).foldl
    (processDay re mc daily_hours start_date) ⟨[], normalize_syllabus syllabus, 0⟩

/-- The `"UNSCHEDULED"` overflow entries appended after the date range is
exhausted: one per topic whose remaining effort exceeds `0.0001`. -/
def genUns (re : ℕ) (mc : ℚ) (syllabus : List SyllabusItem)
    (start_date exam_date : ℤ) (daily_hours : ℚ) : List Session :=
  ((genFin re mc syllabus start_date exam_date daily_hours).topics.filter
    (fun t => decide ((1 : ℚ)/10000 < t.remaining))).map
    (fun t => ⟨.unscheduled, t.topic, round2 t.remaining, "pending", overflowNote⟩)

/-- `generate_plan(syllabus, start_date_str, exam_date_str, daily_hours)`.
`re` and `mc` are the `REVIEW_EVERY_DAYS` and `MAX_CHUNK_PER_TOPIC_PER_DAY`
configuration values; dates are day ordinals.  Returns the plan, the
`not_enough_time` flag, the total required hours, and the capacity. -/
def generate_plan (re : ℕ) (mc : ℚ) (syllabus : List SyllabusItem)
    (start_date exam_date : ℤ) (daily_hours : ℚ) :
    Except GenError (List Session × Bool × ℚ × ℚ) :=
  if exam_date ≤ start_date then .error .invalidDateRange
  else if exam_date - start_date ≤ 0 then .error .noDaysAvailable
  else
    .ok ((genFin re mc syllabus start_date exam_date daily_hours).plan ++
           genUns re mc syllabus start_date exam_date daily_hours,
         decide (((exam_date - start_date : ℤ) : ℚ) * daily_hours <
           ((normalize_syllabus syllabus).map Topic.remaining).sum),
         ((normalize_syllabus syllabus).map Topic.remaining).sum,
         ((exam_date - start_date : ℤ) : ℚ) * daily_hours)

/-- Detection predicate of `reschedule_missed`: a concrete date strictly
before today, and a status that is neither `done` nor `missed` (missing
`status` keys default to `"pending"`, which the `Session` model makes
explicit). -/
def isMissedCand (today : ℤ) (p : Session) : Bool :=
  match p.date with
  | .unscheduled => false
  | .day n => decide (n < today) && !(p.status == "done") && !(p.status == "missed")

/-- In-place marking of a detected missed session: set status and prefix
the notes with a marker (followed by `.strip()`). -/
def markMissed (today : ℤ) (p : Session) : Session :=
  if isMissedCand today p then
    { p with
      status := "missed"
      notes := pyStrip ("marked missed on " ++ isoStr today ++ "; " ++ p.notes) }
  else p

/-- The occupancy ledger built over the dates from today (inclusive) to the
exam (exclusive): for each window date, the summed hours of sessions on
that date whose status is not `missed`; `0` outside the window (the source
dict simply has no such key, and lookups use `.get(d, 0.0)`). -/
def occInit (today : ℤ) (days : ℕ) (plan : List Session) : ℤ → ℚ := fun d =>
  if today ≤ d ∧ d < today + days then
    ((plan.filter (fun p =>
       decide (p.date = PDate.day d) && !(p.status == "missed"))).map
      Session.duration_hours).sum
  else 0

/-- First-fit scan for a date with room: offsets `off, off+1, ...` with `k`
window days still to try. -/
def findSlot (b : ℚ) (occ : ℤ → ℚ) (today : ℤ) (dur : ℚ) : ℕ → ℕ → Option ℤ
  | _, 0 => none
  | off, k + 1 =>
    if occ (today + (off : ℤ)) + dur ≤ b + 1/1000000 then some (today + (off : ℤ))
    else findSlot b occ today dur (off + 1) k

/-- The ledger update `occupancy[d] += dur`. -/
def bumpOcc (occ : ℤ → ℚ) (d : ℤ) (dur : ℚ) : ℤ → ℚ :=
  fun x => if x = d then occ x + dur else occ x

/-- The new pending entry recorded for a placed missed session `m`. -/
def placedEntry (d : ℤ) (m : Session) : Session :=
  ⟨.day d, m.topic, m.duration_hours, "pending", "rescheduled from " ++ pdateStr m.date⟩

/-- The placement loop over the detected (already marked) missed sessions.
Returns the final ledger, the number placed, the new pending entries (in
placement order), and the sessions that could not be placed. -/
def placeLoop (b : ℚ) (today : ℤ) (days : ℕ) :
    List Session → (ℤ → ℚ) → ((ℤ → ℚ) × ℕ × List Session × List Session)
  | [], occ => (occ, 0, [], [])
  | m :: ms, occ =>
    match findSlot b occ today m.duration_hours 0 days with
    | some d =>
      ((placeLoop b today days ms (bumpOcc occ d m.duration_hours)).1,
       (placeLoop b today days ms (bumpOcc occ d m.duration_hours)).2.1 + 1,
       placedEntry d m ::
         (placeLoop b today days ms (bumpOcc occ d m.duration_hours)).2.2.1,
       (placeLoop b today days ms (bumpOcc occ d m.duration_hours)).2.2.2)
    | none =>
      ((placeLoop b today days ms occ).1,
       (placeLoop b today days ms occ).2.1,
       (placeLoop b today days ms occ).2.2.1,
       m :: (placeLoop b today days ms occ).2.2.2)

/-- The overflow note appended by `reschedule_missed` for unplaceable
sessions. -/
def rescheduleFailNote : String := "reschedule failed: not enough free days before exam."

/-- The non-trivial branch of `reschedule_missed` (at least one session was
detected): mark, build the ledger, place first-fit, and append overflow
entries. -/
def reschedule_core (today : ℤ) (plan : List Session) (days : ℕ) (b : ℚ) :
    List Session × ℕ :=
  let missed1 := (plan.filter (isMissedCand today)).map (markMissed today)
  let plan1 := plan.map (markMissed today)
  let occ := occInit today days plan1
  let r := placeLoop b today days missed1 occ
  (plan1 ++ r.2.2.1 ++ r.2.2.2.map (fun u =>
     ⟨.unscheduled, u.topic, u.duration_hours, "pending", rescheduleFailNote⟩),
   r.2.1)

/-- `reschedule_missed(plan, start_date_str, exam_date_str, daily_hours)`.
`today` models `datetime.date.today()`; `start_date` is parsed by the
source but never used.  `days = max(exam - today, 0)` is the window length. -/
def reschedule_missed (today : ℤ) (plan : List Session)
    (start_date exam_date : ℤ) (daily_hours : ℚ) : List Session × ℕ :=
  let days : ℕ := (exam_date - today).toNat
  let missed := plan.filter (isMissedCand today)
  if missed.isEmpty then (plan, 0)
  else reschedule_core today plan days daily_hours

/-- Total `duration_hours` of a list of sessions. -/
def durSum (l : List Session) : ℚ := (l.map Session.duration_hours).sum

/-- Total `duration_hours` of the sessions dated on the concrete day `d`. -/
def durOn (d : ℤ) (l : List Session) : ℚ :=
  durSum (l.filter (fun s => decide (s.date = PDate.day d)))

/-- Total `duration_hours` allocated to topic `nm` on concrete dates. -/
def concreteAlloc (nm : String) (l : List Session) : ℚ :=
  durSum (l.filter (fun s => decide (s.topic = nm) && decide (s.date ≠ PDate.unscheduled)))

/-- Total `duration_hours` of the `"UNSCHEDULED"` entries for topic `nm`. -/
def unschedAlloc (nm : String) (l : List Session) : ℚ :=
  durSum (l.filter (fun s => decide (s.topic = nm) && decide (s.date = PDate.unscheduled)))

/-- Conservation invariant for C2, relative to the normalized topic list
`topics0`: each topic's concrete allocation in the plan so far plus its
current remaining effort agrees with its original estimate (exactly while
untouched, within half a hundredth once rounding has occurred). -/
def TInv (topics0 : List Topic) (plan : List Session) (topics : List Topic) : Prop :=
  topics.length = topics0.length ∧
  ∀ j : ℕ, ∀ t t0 : Topic, topics.get? j = some t → topics0.get? j = some t0 →
    t.topic = t0.topic ∧ 0 ≤ t.remaining ∧
    ((concreteAlloc t0.topic plan = 0 ∧ t.remaining = t0.remaining) ∨
     (TwoDec t.remaining ∧
      |concreteAlloc t0.topic plan + t.remaining - t0.remaining| ≤ 1/200))

theorem floor_le_rhe (x : ℚ) : ⌊x⌋ ≤ roundHalfEven x := by
  unfold roundHalfEven; split_ifs <;> omega

theorem rhe_le_floor_add_one (x : ℚ) : roundHalfEven x ≤ ⌊x⌋ + 1 := by
  unfold roundHalfEven; split_ifs <;> omega

theorem rhe_intCast (n : ℤ) : roundHalfEven (n : ℚ) = n := by
  unfold roundHalfEven
  rw [Int.floor_intCast]
  simp

theorem rhe_mono {x y : ℚ} (h : x ≤ y) : roundHalfEven x ≤ roundHalfEven y := by
  rcases lt_or_eq_of_le (Int.floor_le_floor h) with hf | hf
  · calc roundHalfEven x ≤ ⌊x⌋ + 1 := rhe_le_floor_add_one x
      _ ≤ ⌊y⌋ := by omega
      _ ≤ roundHalfEven y := floor_le_rhe y
  · unfold roundHalfEven
    rw [hf]
    have hxy : x - (⌊y⌋ : ℚ) ≤ y - (⌊y⌋ : ℚ) := by linarith
    split_ifs <;> first | omega | linarith

theorem rhe_err (x : ℚ) : |(roundHalfEven x : ℚ) - x| ≤ 1/2 := by
  have h1 : ((⌊x⌋ : ℤ) : ℚ) ≤ x := Int.floor_le x
  have h2 : x < (⌊x⌋ : ℤ) + 1 := Int.lt_floor_add_one x
  unfold roundHalfEven
  split_ifs <;> rw [abs_le] <;> constructor <;> push_cast <;> linarith

theorem twoDec_round2 (x : ℚ) : TwoDec (round2 x) := ⟨roundHalfEven (100 * x), rfl⟩

theorem round2_eq_self {x : ℚ} (h : TwoDec x) : round2 x = x := by
  obtain ⟨k, rfl⟩ := h
  unfold round2
  have h100 : (100 : ℚ) * ((k : ℚ) / 100) = (k : ℚ) := by field_simp
  rw [h100, rhe_intCast]

theorem round2_mono {x y : ℚ} (h : x ≤ y) : round2 x ≤ round2 y := by
  unfold round2
  have : roundHalfEven (100 * x) ≤ roundHalfEven (100 * y) := rhe_mono (by linarith)
  have : ((roundHalfEven (100 * x) : ℤ) : ℚ) ≤ ((roundHalfEven (100 * y) : ℤ) : ℚ) := by
    exact_mod_cast this
  linarith

theorem round2_err (x : ℚ) : |round2 x - x| ≤ 1/200 := by
  have h := rhe_err (100 * x)
  have hx : round2 x - x = ((roundHalfEven (100 * x) : ℚ) - 100 * x) / 100 := by
    unfold round2; ring
  rw [hx, abs_div, abs_of_pos (by norm_num : (0:ℚ) < 100)]
  linarith

theorem round2_idem (x : ℚ) : round2 (round2 x) = round2 x :=
  round2_eq_self (twoDec_round2 x)

theorem round2_le_of_le_twoDec {x y : ℚ} (h : x ≤ y) (hy : TwoDec y) : round2 x ≤ y := by
  calc round2 x ≤ round2 y := round2_mono h
    _ = y := round2_eq_self hy

theorem round2_neg_small : round2 (-(1/200) : ℚ) = 0 := by
  have hfl : ⌊(100 : ℚ) * (-(1/200))⌋ = -1 := by
    rw [Int.floor_eq_iff]
    norm_num
  unfold round2 roundHalfEven
  rw [hfl]
  norm_num

theorem round2_nonneg {x : ℚ} (h : -(1/200) ≤ x) : 0 ≤ round2 x := by
  have := round2_mono h
  rw [round2_neg_small] at this
  exact this

theorem twoDec_intCast (n : ℤ) : TwoDec (n : ℚ) :=
  ⟨100 * n, by push_cast; field_simp⟩

theorem twoDec_zero : TwoDec (0 : ℚ) := by
  simpa using twoDec_intCast 0

theorem twoDec_one : TwoDec (1 : ℚ) := by
  simpa using twoDec_intCast 1

theorem twoDec_add {x y : ℚ} (hx : TwoDec x) (hy : TwoDec y) : TwoDec (x + y) := by
  obtain ⟨a, rfl⟩ := hx
  obtain ⟨b, rfl⟩ := hy
  exact ⟨a + b, by push_cast; ring⟩

theorem twoDec_neg {x : ℚ} (hx : TwoDec x) : TwoDec (-x) := by
  obtain ⟨a, rfl⟩ := hx
  exact ⟨-a, by push_cast; ring⟩

theorem twoDec_sub {x y : ℚ} (hx : TwoDec x) (hy : TwoDec y) : TwoDec (x - y) := by
  rw [sub_eq_add_neg]; exact twoDec_add hx (twoDec_neg hy)

theorem twoDec_min {x y : ℚ} (hx : TwoDec x) (hy : TwoDec y) : TwoDec (min x y) := by
  rcases min_choice x y with h | h <;> rw [h] <;> assumption

theorem twoDec_small_eq_zero {x : ℚ} (h : TwoDec x) (h0 : 0 ≤ x) (h1 : x ≤ 1/10000) :
    x = 0 := by
  obtain ⟨k, rfl⟩ := h
  have hk0 : (0 : ℚ) ≤ (k : ℚ) := by linarith
  have hk1 : (k : ℚ) ≤ 1/100 := by linarith
  have hk0' : (0 : ℤ) ≤ k := by exact_mod_cast hk0
  have hk1' : k < 1 := by
    have : (k : ℚ) < 1 := lt_of_le_of_lt hk1 (by norm_num)
    exact_mod_cast this
  have : k = 0 := by omega
  rw [this]; norm_num

theorem pymin_eq (a b : ℚ) : pymin a b = min a b := by
  unfold pymin
  rw [min_def]

theorem durSum_append (a b : List Session) : durSum (a ++ b) = durSum a + durSum b := by
  simp [durSum]

theorem durOn_append (d : ℤ) (a b : List Session) :
    durOn d (a ++ b) = durOn d a + durOn d b := by
  simp [durOn, durSum, List.filter_append]

theorem durOn_nil (d : ℤ) : durOn d [] = 0 := rfl

theorem concreteAlloc_append (nm : String) (a b : List Session) :
    concreteAlloc nm (a ++ b) = concreteAlloc nm a + concreteAlloc nm b := by
  simp [concreteAlloc, durSum, List.filter_append]

theorem unschedAlloc_append (nm : String) (a b : List Session) :
    unschedAlloc nm (a ++ b) = unschedAlloc nm a + unschedAlloc nm b := by
  simp [unschedAlloc, durSum, List.filter_append]

theorem durOn_singleton (d : ℤ) (s : Session) :
    durOn d [s] = if s.date = PDate.day d then s.duration_hours else 0 := by
  by_cases h : s.date = PDate.day d <;> simp [durOn, durSum, h]

theorem concreteAlloc_singleton (nm : String) (s : Session) :
    concreteAlloc nm [s] =
      if s.topic = nm ∧ s.date ≠ PDate.unscheduled then s.duration_hours else 0 := by
  by_cases h1 : s.topic = nm <;> by_cases h2 : s.date = PDate.unscheduled <;>
    simp [concreteAlloc, durSum, h1, h2]

theorem unschedAlloc_singleton (nm : String) (s : Session) :
    unschedAlloc nm [s] =
      if s.topic = nm ∧ s.date = PDate.unscheduled then s.duration_hours else 0 := by
  by_cases h1 : s.topic = nm <;> by_cases h2 : s.date = PDate.unscheduled <;>
    simp [unschedAlloc, durSum, h1, h2]

theorem durOn_eq_zero {d : ℤ} {l : List Session}
    (h : ∀ p ∈ l, p.date ≠ PDate.day d) : durOn d l = 0 := by
  have : l.filter (fun s => decide (s.date = PDate.day d)) = [] :=
    List.filter_eq_nil.mpr (by intro a ha; simpa using h a ha)
  simp [durOn, durSum, this]

theorem durOn_eq_durSum {d : ℤ} {l : List Session}
    (h : ∀ p ∈ l, p.date = PDate.day d) : durOn d l = durSum l := by
  have : l.filter (fun s => decide (s.date = PDate.day d)) = l :=
    List.filter_eq_self.mpr (by intro a ha; simpa using h a ha)
  simp [durOn, this]

theorem unschedAlloc_eq_zero {nm : String} {l : List Session}
    (h : ∀ p ∈ l, p.date ≠ PDate.unscheduled) : unschedAlloc nm l = 0 := by
  have : l.filter (fun s => decide (s.topic = nm) && decide (s.date = PDate.unscheduled))
      = [] :=
    List.filter_eq_nil.mpr (by intro a ha; simp [h a ha])
  simp [unschedAlloc, durSum, this]

/-- C5: `generate_plan` fails with `InvalidDateRange` iff the exam date is
not strictly after the start date, and succeeds (raising nothing)
otherwise. -/
theorem generate_plan_invalidDateRange_iff (re : ℕ) (mc : ℚ)
    (syl : List SyllabusItem) (s e : ℤ) (b : ℚ) :
    (generate_plan re mc syl s e b = .error .invalidDateRange ↔ e ≤ s) ∧
    (s < e → ∃ out, generate_plan re mc syl s e b = .ok out) := by
  unfold generate_plan
  by_cases h : e ≤ s
  · simp [h]
  · have h2 : ¬ (e - s ≤ 0) := by omega
    simp [h, h2]

/-- C8: `generate_plan` is deterministic — two invocations on identical
inputs (and identical configuration) return identical plans, flags and
totals.  In the embedding the generator is a pure function of exactly these
inputs, so the two results are definitionally equal. -/
theorem generate_plan_deterministic (re : ℕ) (mc : ℚ) (syl : List SyllabusItem)
    (s e : ℤ) (b : ℚ) :
    generate_plan re mc syl s e b = generate_plan re mc syl s e b := rfl

/-- C9: the `start_date_str` argument of `reschedule_missed` is parsed but
never used — any two (parseable) values give identical results. -/
theorem reschedule_missed_ignores_start (today : ℤ) (plan : List Session)
    (sd1 sd2 ed : ℤ) (b : ℚ) :
    reschedule_missed today plan sd1 ed b = reschedule_missed today plan sd2 ed b := rfl

/-- C10: a syllabus item whose `topic` and `name` fields are both absent or
empty is silently skipped by `normalize_syllabus` and contributes nothing. -/
theorem normalize_syllabus_skips_falsy (it : SyllabusItem) (l1 l2 : List SyllabusItem)
    (h1 : falsyS it.topic) (h2 : falsyS it.name) :
    normalize_syllabus (l1 ++ it :: l2) = normalize_syllabus (l1 ++ l2) := by
  have hnone : normTopic it = none := by
    unfold normTopic orFalsy
    cases ht : it.topic with
    | some s =>
      rw [ht] at h1
      have hs : s = "" := h1
      cases hn : it.name with
      | some s' =>
        rw [hn] at h2
        have hs' : s' = "" := h2
        simp [hs, hs']
      | none => simp [hs]
    | none =>
      cases hn : it.name with
      | some s' =>
        rw [hn] at h2
        have hs' : s' = "" := h2
        simp [hs']
      | none => simp
  unfold normalize_syllabus
  rw [List.filterMap_append, List.filterMap_append, List.filterMap_cons, hnone]

theorem markMissed_date (t : ℤ) (p : Session) : (markMissed t p).date = p.date := by
  unfold markMissed; split_ifs <;> rfl

theorem markMissed_dur (t : ℤ) (p : Session) :
    (markMissed t p).duration_hours = p.duration_hours := by
  unfold markMissed; split_ifs <;> rfl

theorem markMissed_not_cand {t : ℤ} {p : Session} (h : isMissedCand t p = false) :
    markMissed t p = p := by
  unfold markMissed; simp [h]

theorem markMissed_cand {t : ℤ} {p : Session} (h : isMissedCand t p = true) :
    (markMissed t p).status = "missed" := by
  unfold markMissed; simp [h]

theorem isMissedCand_markMissed (t : ℤ) (p : Session) :
    isMissedCand t (markMissed t p) = false := by
  by_cases h : isMissedCand t p = true
  · unfold markMissed
    rw [if_pos h]
    cases hd : p.date <;> simp [isMissedCand, hd]
  · rw [markMissed_not_cand (by simpa using h)]
    simpa using h

theorem durOn_map_mark (d t : ℤ) (l : List Session) :
    durOn d (l.map (markMissed t)) = durOn d l := by
  induction l with
  | nil => rfl
  | cons a l ih =>
    have h1 : (a :: l).map (markMissed t) = [markMissed t a] ++ l.map (markMissed t) := rfl
    have h2 : a :: l = [a] ++ l := rfl
    rw [h1, h2, durOn_append, durOn_append, ih, durOn_singleton, durOn_singleton,
      markMissed_date, markMissed_dur]

theorem findSlot_some {b : ℚ} {occ : ℤ → ℚ} {today : ℤ} {dur : ℚ} :
    ∀ {off k : ℕ} {d : ℤ}, findSlot b occ today dur off k = some d →
      occ d + dur ≤ b + 1/1000000 ∧ today + off ≤ d ∧ d < today + off + k := by
  intro off k
  induction k generalizing off with
  | zero => intro d h; exact absurd h (by simp [findSlot])
  | succ k ih =>
    intro d h
    unfold findSlot at h
    split_ifs at h with hc
    · obtain rfl : today + (off : ℤ) = d := by simpa using h
      exact ⟨hc, le_refl _, by omega⟩
    · obtain ⟨h1, h2, h3⟩ := ih h
      refine ⟨h1, by push_cast at h2 ⊢; omega, by push_cast at h3 ⊢; omega⟩

theorem placeLoop_spec (b : ℚ) (today : ℤ) (days : ℕ) :
    ∀ (ms : List Session) (occ : ℤ → ℚ),
      (placeLoop b today days ms occ).2.2.1.length = (placeLoop b today days ms occ).2.1 ∧
      (∀ p ∈ (placeLoop b today days ms occ).2.2.1, p.status = "pending" ∧
        ∃ m : ℤ, p.date = PDate.day m ∧ today ≤ m ∧ m < today + days) ∧
      (∀ x ∈ (placeLoop b today days ms occ).2.2.2, x ∈ ms) ∧
      (∀ d : ℤ, (placeLoop b today days ms occ).1 d =
        occ d + durOn d (placeLoop b today days ms occ).2.2.1) ∧
      (∀ d : ℤ, occ d ≤ b + 1/1000000 →
        (placeLoop b today days ms occ).1 d ≤ b + 1/1000000) := by
  intro ms
  induction ms with
  | nil =>
    intro occ
    refine ⟨rfl, by simp [placeLoop], by simp [placeLoop], ?_, ?_⟩
    · intro d; simp [placeLoop, durOn_nil]
    · intro d h; simpa [placeLoop] using h
  | cons m ms ih =>
    intro occ
    cases hfs : findSlot b occ today m.duration_hours 0 days with
    | none =>
      have hpl : placeLoop b today days (m :: ms) occ =
          ((placeLoop b today days ms occ).1,
           (placeLoop b today days ms occ).2.1,
           (placeLoop b today days ms occ).2.2.1,
           m :: (placeLoop b today days ms occ).2.2.2) := by
        simp [placeLoop, hfs]
      obtain ⟨iha, ihb, ihc, ihd, ihe⟩ := ih occ
      rw [hpl]
      refine ⟨iha, ihb, ?_, ihd, ihe⟩
      intro x hx
      rcases List.mem_cons.mp hx with hx | hx
      · exact hx ▸ List.mem_cons_self _ _
      · exact List.mem_cons_of_mem _ (ihc x hx)
    | some d0 =>
      have hpl : placeLoop b today days (m :: ms) occ =
          ((placeLoop b today days ms (bumpOcc occ d0 m.duration_hours)).1,
           (placeLoop b today days ms (bumpOcc occ d0 m.duration_hours)).2.1 + 1,
           placedEntry d0 m ::
             (placeLoop b today days ms (bumpOcc occ d0 m.duration_hours)).2.2.1,
           (placeLoop b today days ms (bumpOcc occ d0 m.duration_hours)).2.2.2) := by
        simp [placeLoop, hfs]
      obtain ⟨hocc, hlo, hhi⟩ := findSlot_some hfs
      obtain ⟨iha, ihb, ihc, ihd, ihe⟩ := ih (bumpOcc occ d0 m.duration_hours)
      rw [hpl]
      refine ⟨?_, ?_, ?_, ?_, ?_⟩
      · simpa using iha
      · intro p hp
        rcases List.mem_cons.mp hp with hp | hp
        · refine ⟨by rw [hp]; rfl, d0, by rw [hp]; rfl, by omega, by omega⟩
        · exact ihb p hp
      · intro x hx
        exact List.mem_cons_of_mem _ (ihc x hx)
      · intro d
        have h1 : durOn d (placedEntry d0 m ::
            (placeLoop b today days ms (bumpOcc occ d0 m.duration_hours)).2.2.1) =
            (if d0 = d then m.duration_hours else 0) +
              durOn d (placeLoop b today days ms (bumpOcc occ d0 m.duration_hours)).2.2.1 := by
          have hc : placedEntry d0 m ::
              (placeLoop b today days ms (bumpOcc occ d0 m.duration_hours)).2.2.1 =
              [placedEntry d0 m] ++
              (placeLoop b today days ms (bumpOcc occ d0 m.duration_hours)).2.2.1 := rfl
          rw [hc, durOn_append, durOn_singleton]
          simp [placedEntry]
        simp only [h1, ihd d]
        by_cases hd : d = d0
        · subst hd; simp [bumpOcc]; ring
        · have hd' : ¬ (d0 = d) := fun hh => hd hh.symm
          simp [bumpOcc, hd, hd']
      · intro d hle
        apply ihe
        by_cases hd : d = d0
        · rw [hd]
          have hb : bumpOcc occ d0 m.duration_hours d0 = occ d0 + m.duration_hours := by
            simp [bumpOcc]
          rw [hb]
          exact hocc
        · have hb : bumpOcc occ d0 m.duration_hours d = occ d := by
            simp [bumpOcc, hd]
          rw [hb]
          exact hle

theorem isMissedCand_true {today : ℤ} {p : Session} (h : isMissedCand today p = true) :
    ∃ n : ℤ, p.date = PDate.day n ∧ n < today ∧ p.status ≠ "done" ∧ p.status ≠ "missed" := by
  unfold isMissedCand at h
  cases hd : p.date with
  | unscheduled => rw [hd] at h; simp at h
  | day n =>
    rw [hd] at h
    simp at h
    exact ⟨n, rfl, h.1.1, h.1.2, h.2⟩

theorem isMissedCand_false_char {today : ℤ} {p : Session} {n : ℤ}
    (hd : p.date = PDate.day n) (hn : n < today) (h : isMissedCand today p = false) :
    p.status = "done" ∨ p.status = "missed" := by
  unfold isMissedCand at h
  rw [hd] at h
  by_cases h1 : p.status = "done"
  · exact Or.inl h1
  · by_cases h2 : p.status = "missed"
    · exact Or.inr h2
    · simp [hn, h1, h2] at h

theorem isMissedCand_future {today n : ℤ} {p : Session}
    (hd : p.date = PDate.day n) (hn : today ≤ n) : isMissedCand today p = false := by
  unfold isMissedCand
  rw [hd]
  simp
  omega

theorem reschedule_missed_eq_self {today : ℤ} {plan : List Session} {sd ed : ℤ} {b : ℚ}
    (h : plan.filter (isMissedCand today) = []) :
    reschedule_missed today plan sd ed b = (plan, 0) := by
  unfold reschedule_missed
  simp [h]

theorem reschedule_missed_eq_core {today : ℤ} {plan : List Session} {sd ed : ℤ} {b : ℚ}
    (h : plan.filter (isMissedCand today) ≠ []) :
    reschedule_missed today plan sd ed b =
      reschedule_core today plan (ed - today).toNat b := by
  unfold reschedule_missed
  simp [h]

theorem reschedule_core_def (today : ℤ) (plan : List Session) (days : ℕ) (b : ℚ) :
    reschedule_core today plan days b =
      ((plan.map (markMissed today)) ++
        (placeLoop b today days ((plan.filter (isMissedCand today)).map (markMissed today))
          (occInit today days (plan.map (markMissed today)))).2.2.1 ++
        ((placeLoop b today days ((plan.filter (isMissedCand today)).map (markMissed today))
          (occInit today days (plan.map (markMissed today)))).2.2.2.map (fun u =>
            ⟨.unscheduled, u.topic, u.duration_hours, "pending", rescheduleFailNote⟩)),
       (placeLoop b today days ((plan.filter (isMissedCand today)).map (markMissed today))
          (occInit today days (plan.map (markMissed today)))).2.1) := rfl

theorem occInit_eq_durOn {today : ℤ} {days : ℕ} {l : List Session} {d : ℤ}
    (hw : today ≤ d ∧ d < today + days)
    (hm : ∀ p ∈ l, p.status = "missed" → p.date ≠ PDate.day d) :
    occInit today days l d = durOn d l := by
  unfold occInit durOn durSum
  rw [if_pos hw]
  have hf : l.filter (fun p => decide (p.date = PDate.day d) && !(p.status == "missed"))
      = l.filter (fun s => decide (s.date = PDate.day d)) := by
    apply List.filter_congr
    intro p hp
    by_cases hd : p.date = PDate.day d
    · have hs : p.status ≠ "missed" := fun hs => hm p hp hs hd
      simp [hd, hs]
    · simp [hd]
  rw [hf]

theorem mem_map_mark {today : ℤ} {plan : List Session} {p : Session}
    (hp : p ∈ plan.map (markMissed today)) :
    ∃ q ∈ plan, p = markMissed today q := by
  obtain ⟨q, hq, hqe⟩ := List.mem_map.mp hp
  exact ⟨q, hq, hqe.symm⟩

/-- C3: after `reschedule_missed`, every concrete session dated strictly
before today whose status is not `done` has status `missed`; sessions dated
today or later are untouched (same list position, same record); and every
appended entry has status `pending` (never `missed`). -/
theorem reschedule_missed_marks (today : ℤ) (plan : List Session) (sd ed : ℤ) (b : ℚ) :
    (∀ p ∈ (reschedule_missed today plan sd ed b).1, ∀ n : ℤ,
        p.date = PDate.day n → n < today → p.status ≠ "done" → p.status = "missed") ∧
    (∀ i : ℕ, ∀ q : Session, plan.get? i = some q → ∀ n : ℤ, q.date = PDate.day n →
        today ≤ n → (reschedule_missed today plan sd ed b).1.get? i = some q) ∧
    (∀ i : ℕ, plan.length ≤ i → ∀ p : Session,
        (reschedule_missed today plan sd ed b).1.get? i = some p →
        p.status = "pending") := by
  by_cases hmi : plan.filter (isMissedCand today) = []
  · rw [reschedule_missed_eq_self hmi]
    refine ⟨?_, ?_, ?_⟩
    · intro p hp n hdn hlt hnd
      have hc : isMissedCand today p = false := by
        by_cases hc : isMissedCand today p = true
        · have : p ∈ plan.filter (isMissedCand today) := List.mem_filter.mpr ⟨hp, hc⟩
          rw [hmi] at this
          exact absurd this (List.not_mem_nil p)
        · simpa using hc
      rcases isMissedCand_false_char hdn hlt hc with h | h
      · exact absurd h hnd
      · exact h
    · intro i q hq n hdn hn
      exact hq
    · intro i hi p hp
      have : plan.get? i = none := List.get?_eq_none.mpr hi
      rw [this] at hp
      exact absurd hp (by simp)
  · rw [reschedule_missed_eq_core hmi, reschedule_core_def]
    obtain ⟨hlen, hent, huns, hled, hbound⟩ :=
      placeLoop_spec b today (ed - today).toNat
        ((plan.filter (isMissedCand today)).map (markMissed today))
        (occInit today (ed - today).toNat (plan.map (markMissed today)))
    refine ⟨?_, ?_, ?_⟩
    · intro p hp n hdn hlt hnd
      rcases List.mem_append.mp hp with hp | hp
      · rcases List.mem_append.mp hp with hp | hp
        · obtain ⟨q, hq, rfl⟩ := mem_map_mark hp
          by_cases hc : isMissedCand today q = true
          · exact markMissed_cand hc
          · have hc' : isMissedCand today q = false := by simpa using hc
            rw [markMissed_not_cand hc'] at hdn hnd ⊢
            rcases isMissedCand_false_char hdn hlt hc' with h | h
            · exact absurd h hnd
            · exact h
        · obtain ⟨_, m, hm, hm1, _⟩ := hent p hp
          rw [hdn] at hm
          have : n = m := by injection hm
          omega
      · obtain ⟨u, _, hu⟩ := List.mem_map.mp hp
        rw [← hu] at hdn
        exact absurd hdn (by simp)
    · intro i q hq n hdn hn
      have hi : i < plan.length := by
        by_contra hcon
        rw [List.get?_eq_none.mpr (by omega)] at hq
        exact absurd hq (by simp)
      rw [List.append_assoc, List.get?_append (by simpa using hi), List.get?_map, hq]
      have : markMissed today q = q :=
        markMissed_not_cand (isMissedCand_future hdn hn)
      simp [this]
    · intro i hi p hp
      rw [List.append_assoc,
        List.get?_append_right (by simpa using hi)] at hp
      have hp' := List.get?_mem hp
      rcases List.mem_append.mp hp' with h | h
      · exact (hent p h).1
      · obtain ⟨u, _, hu⟩ := List.mem_map.mp h
        rw [← hu]

/-- C4: reconciliation is idempotent — immediately re-running
`reschedule_missed` with the same today, exam date and budget detects no
missed sessions and places nothing, returning the plan unchanged. -/
theorem reschedule_missed_idempotent (today : ℤ) (plan : List Session) (sd ed : ℤ)
    (b : ℚ) :
    ((reschedule_missed today plan sd ed b).1.filter (isMissedCand today) = []) ∧
    reschedule_missed today (reschedule_missed today plan sd ed b).1 sd ed b =
      ((reschedule_missed today plan sd ed b).1, 0) := by
  have hfilter : (reschedule_missed today plan sd ed b).1.filter (isMissedCand today)
      = [] := by
    apply List.filter_eq_nil.mpr
    intro p hp
    suffices h : isMissedCand today p = false by simp [h]
    by_cases hmi : plan.filter (isMissedCand today) = []
    · rw [reschedule_missed_eq_self hmi] at hp
      by_cases hc : isMissedCand today p = true
      · have : p ∈ plan.filter (isMissedCand today) := List.mem_filter.mpr ⟨hp, hc⟩
        rw [hmi] at this
        exact absurd this (List.not_mem_nil p)
      · simpa using hc
    · rw [reschedule_missed_eq_core hmi, reschedule_core_def] at hp
      obtain ⟨hlen, hent, huns, hled, hbound⟩ :=
        placeLoop_spec b today (ed - today).toNat
          ((plan.filter (isMissedCand today)).map (markMissed today))
          (occInit today (ed - today).toNat (plan.map (markMissed today)))
      rcases List.mem_append.mp hp with hp | hp
      · rcases List.mem_append.mp hp with hp | hp
        · obtain ⟨q, hq, rfl⟩ := mem_map_mark hp
          exact isMissedCand_markMissed today q
        · obtain ⟨_, m, hm, hm1, _⟩ := hent p hp
          exact isMissedCand_future hm hm1
      · obtain ⟨u, _, hu⟩ := List.mem_map.mp hp
        rw [← hu]
        rfl
  exact ⟨hfilter, reschedule_missed_eq_self hfilter⟩

/-- C6 (amended): when no missed session is detected, `reschedule_missed`
returns the plan unchanged with a count of zero; and whenever the count is
zero, no dated session has been appended — the result is the marked input
plan plus (possibly) `"UNSCHEDULED"` overflow entries only. -/
theorem reschedule_missed_zero_placed (today : ℤ) (plan : List Session) (sd ed : ℤ)
    (b : ℚ) :
    (plan.filter (isMissedCand today) = [] →
      reschedule_missed today plan sd ed b = (plan, 0)) ∧
    ((reschedule_missed today plan sd ed b).2 = 0 →
      ∃ extra : List Session, (reschedule_missed today plan sd ed b).1 =
          plan.map (markMissed today) ++ extra ∧
        ∀ x ∈ extra, x.date = PDate.unscheduled ∧ x.status = "pending") := by
  constructor
  · exact fun h => reschedule_missed_eq_self h
  · intro hz
    by_cases hmi : plan.filter (isMissedCand today) = []
    · rw [reschedule_missed_eq_self hmi]
      refine ⟨[], ?_, by simp⟩
      rw [List.append_nil]
      have hmap : plan.map (markMissed today) = plan := by
        have : ∀ p ∈ plan, markMissed today p = p := by
          intro p hp
          apply markMissed_not_cand
          by_cases hc : isMissedCand today p = true
          · have : p ∈ plan.filter (isMissedCand today) := List.mem_filter.mpr ⟨hp, hc⟩
            rw [hmi] at this
            exact absurd this (List.not_mem_nil p)
          · simpa using hc
        calc plan.map (markMissed today) = plan.map id := List.map_congr_left this
          _ = plan := List.map_id plan
      rw [hmap]
    · rw [reschedule_missed_eq_core hmi, reschedule_core_def] at hz ⊢
      obtain ⟨hlen, hent, huns, hled, hbound⟩ :=
        placeLoop_spec b today (ed - today).toNat
          ((plan.filter (isMissedCand today)).map (markMissed today))
          (occInit today (ed - today).toNat (plan.map (markMissed today)))
      simp only at hz
      have hnil : (placeLoop b today (ed - today).toNat
          ((plan.filter (isMissedCand today)).map (markMissed today))
          (occInit today (ed - today).toNat (plan.map (markMissed today)))).2.2.1 = [] := by
        apply List.eq_nil_of_length_eq_zero
        rw [hlen, hz]
      refine ⟨(placeLoop b today (ed - today).toNat
          ((plan.filter (isMissedCand today)).map (markMissed today))
          (occInit today (ed - today).toNat (plan.map (markMissed today)))).2.2.2.map
          (fun u => ⟨.unscheduled, u.topic, u.duration_hours, "pending",
            rescheduleFailNote⟩), ?_, ?_⟩
      · simp only [hnil, List.append_nil]
      · intro x hx
        obtain ⟨u, _, hu⟩ := List.mem_map.mp hx
        rw [← hu]
        exact ⟨rfl, rfl⟩

/-- Preservation half of C1: if every concrete date of the input plan is
within budget and every missed-status session is dated before today (as
holds for generated and previously reconciled plans), then every concrete
date of the reconciled plan is still within budget. -/
theorem reschedule_missed_preserves_daily (today : ℤ) (plan : List Session)
    (sd ed : ℤ) (b : ℚ)
    (hsum : ∀ d : ℤ, durOn d plan ≤ b + 1/1000000)
    (hmiss : ∀ p ∈ plan, p.status = "missed" → ∀ n : ℤ, p.date = PDate.day n →
      n < today) :
    ∀ d : ℤ, durOn d (reschedule_missed today plan sd ed b).1 ≤ b + 1/1000000 := by
  intro d
  by_cases hmi : plan.filter (isMissedCand today) = []
  · rw [reschedule_missed_eq_self hmi]
    exact hsum d
  · rw [reschedule_missed_eq_core hmi, reschedule_core_def]
    obtain ⟨hlen, hent, huns, hled, hbound⟩ :=
      placeLoop_spec b today (ed - today).toNat
        ((plan.filter (isMissedCand today)).map (markMissed today))
        (occInit today (ed - today).toNat (plan.map (markMissed today)))
    simp only [durOn_append]
    have hC : durOn d ((placeLoop b today (ed - today).toNat
        ((plan.filter (isMissedCand today)).map (markMissed today))
        (occInit today (ed - today).toNat (plan.map (markMissed today)))).2.2.2.map
        (fun u => ⟨.unscheduled, u.topic, u.duration_hours, "pending",
          rescheduleFailNote⟩)) = 0 := by
      apply durOn_eq_zero
      intro p hp
      obtain ⟨u, _, hu⟩ := List.mem_map.mp hp
      rw [← hu]
      simp
    have hA : durOn d (plan.map (markMissed today)) = durOn d plan :=
      durOn_map_mark d today plan
    by_cases hw : today ≤ d ∧ d < today + ((ed - today).toNat : ℤ)
    · have hnomiss : ∀ p ∈ plan.map (markMissed today), p.status = "missed" →
          p.date ≠ PDate.day d := by
        intro p hp hst
        obtain ⟨q, hq, rfl⟩ := mem_map_mark hp
        by_cases hc : isMissedCand today q = true
        · obtain ⟨n, hn, hnt, _, _⟩ := isMissedCand_true hc
          rw [markMissed_date, hn]
          intro hcon
          have : n = d := by injection hcon
          omega
        · have hc' : isMissedCand today q = false := by simpa using hc
          rw [markMissed_not_cand hc'] at hst ⊢
          intro hcon
          have := hmiss q hq hst d hcon
          omega
      have hocc : occInit today (ed - today).toNat (plan.map (markMissed today)) d =
          durOn d (plan.map (markMissed today)) := occInit_eq_durOn hw hnomiss
      have hfin : (placeLoop b today (ed - today).toNat
          ((plan.filter (isMissedCand today)).map (markMissed today))
          (occInit today (ed - today).toNat (plan.map (markMissed today)))).1 d ≤
          b + 1/1000000 := by
        apply hbound
        rw [hocc, hA]
        exact hsum d
      have hB := hled d
      rw [hC, hA]
      rw [hocc, hA] at hB
      linarith
    · have hB : durOn d (placeLoop b today (ed - today).toNat
          ((plan.filter (isMissedCand today)).map (markMissed today))
          (occInit today (ed - today).toNat (plan.map (markMissed today)))).2.2.1 = 0 := by
        apply durOn_eq_zero
        intro p hp
        obtain ⟨_, m, hm, hm1, hm2⟩ := hent p hp
        rw [hm]
        intro hcon
        have : m = d := by injection hcon
        omega
      rw [hA, hB, hC]
      have := hsum d
      linarith

theorem findTopic_some {mc capleft : ℚ} {topics : List Topic} {cti : ℕ} :
    ∀ {i k idx : ℕ} {t : Topic} {alloc : ℚ},
      findTopic mc capleft topics cti i k = some (idx, t, alloc) →
      topics.get? idx = some t ∧ 0 < t.remaining ∧
      alloc = pymin t.remaining (pymin (pymin mc capleft) capleft) ∧ 0 < alloc := by
  intro i k
  induction k generalizing i with
  | zero => intro idx t alloc h; exact absurd h (by simp [findTopic])
  | succ k ih =>
    intro idx t alloc h
    unfold findTopic at h
    cases hg : topics.get? ((cti + i) % topics.length) with
    | none => rw [hg] at h; exact absurd h (by simp)
    | some t' =>
      rw [hg] at h
      dsimp only at h
      split_ifs at h with h1 h2
      · have h' : (cti + i) % topics.length = idx ∧ t' = t ∧
            pymin t'.remaining (pymin (pymin mc capleft) capleft) = alloc := by
          simpa using h
        obtain ⟨hidx, rfl, halloc⟩ := h'
        rw [← hidx]
        exact ⟨hg, h1, halloc.symm, halloc ▸ h2⟩
      · exact ih h
      · exact ih h

theorem allocLoop_spec (mc : ℚ) (date : PDate) :
    ∀ (fuel : ℕ) (st : GState),
      ∃ Δ : List Session,
        (allocLoop mc date fuel st).plan = st.plan ++ Δ ∧
        (∀ p ∈ Δ, p.date = date ∧ p.status = "pending" ∧
          p.duration_hours = round2 p.duration_hours ∧ 0 ≤ p.duration_hours) ∧
        (allocLoop mc date fuel st).topics.length = st.topics.length ∧
        (∀ j : ℕ, ((allocLoop mc date fuel st).topics.get? j).map Topic.topic =
          (st.topics.get? j).map Topic.topic) ∧
        (TwoDec st.capleft →
          TwoDec (allocLoop mc date fuel st).capleft ∧
          durSum Δ = st.capleft - (allocLoop mc date fuel st).capleft ∧
          (0 ≤ st.capleft → 0 ≤ (allocLoop mc date fuel st).capleft)) := by
  intro fuel
  induction fuel with
  | zero =>
    intro st
    have hal : allocLoop mc date 0 st = st := by simp [allocLoop]
    exact ⟨[], by rw [hal]; simp, by simp, by rw [hal], fun j => by rw [hal],
      fun h => ⟨by rw [hal]; exact h, by rw [hal]; simp [durSum], fun h0 => by
        rw [hal]; exact h0⟩⟩
  | succ fuel ih =>
    intro st
    by_cases hg : 0 < st.capleft ∧ ∃ t ∈ st.topics, 0 < t.remaining
    · cases hf : findTopic mc st.capleft st.topics st.cti 0 st.topics.length with
      | none =>
        have hal : allocLoop mc date (fuel + 1) st = st := by
          conv_lhs => rw [allocLoop]
          rw [if_pos hg, hf]
        exact ⟨[], by rw [hal]; simp, by simp, by rw [hal], fun j => by rw [hal],
          fun h => ⟨by rw [hal]; exact h, by rw [hal]; simp [durSum], fun h0 => by
            rw [hal]; exact h0⟩⟩
      | some r =>
        obtain ⟨idx, t, alloc⟩ := r
        obtain ⟨hget, hrem, halloc, hapos⟩ := findTopic_some hf
        have hal : allocLoop mc date (fuel + 1) st = allocLoop mc date fuel
            { plan := st.plan ++ [⟨date, t.topic, round2 alloc, "pending", ""⟩]
              topics := st.topics.set idx
                { t with remaining := round2 (t.remaining - round2 alloc) }
              cti := (idx + 1) % st.topics.length
              capleft := round2 (st.capleft - round2 alloc) } := by
          conv_lhs => rw [allocLoop]
          rw [if_pos hg, hf]
        obtain ⟨Δ, ihp, ihg, ihl, ihn, ihc⟩ := ih
          { plan := st.plan ++ [⟨date, t.topic, round2 alloc, "pending", ""⟩]
            topics := st.topics.set idx
              { t with remaining := round2 (t.remaining - round2 alloc) }
            cti := (idx + 1) % st.topics.length
            capleft := round2 (st.capleft - round2 alloc) }
        refine ⟨⟨date, t.topic, round2 alloc, "pending", ""⟩ :: Δ, ?_, ?_, ?_, ?_, ?_⟩
        · rw [hal, ihp]
          simp
        · intro p hp
          rcases List.mem_cons.mp hp with hp | hp
          · subst hp
            exact ⟨rfl, rfl, (round2_idem alloc).symm,
              round2_nonneg (by linarith)⟩
          · exact ihg p hp
        · rw [hal, ihl]
          simp
        · intro j
          rw [hal, ihn j]
          by_cases hj : j = idx
          · subst hj
            rw [List.get?_set_eq, hget]
            rfl
          · rw [List.get?_set_ne _ _ (fun hh => hj hh.symm)]
        · intro hcap
          have hle : alloc ≤ st.capleft := by
            rw [halloc, pymin_eq, pymin_eq, pymin_eq]
            exact le_trans (min_le_right _ _) (min_le_right _ _)
          have hr2 : round2 alloc ≤ st.capleft := round2_le_of_le_twoDec hle hcap
          have hr2' : TwoDec (round2 alloc) := twoDec_round2 alloc
          have hcap' : round2 (st.capleft - round2 alloc) = st.capleft - round2 alloc :=
            round2_eq_self (twoDec_sub hcap hr2')
          have hcapmid : TwoDec (round2 (st.capleft - round2 alloc)) :=
            twoDec_round2 _
          obtain ⟨ihc1, ihc2, ihc3⟩ := ihc hcapmid
          refine ⟨by rw [hal]; exact ihc1, ?_, ?_⟩
          · have hds : durSum (⟨date, t.topic, round2 alloc, "pending", ""⟩ :: Δ) =
                round2 alloc + durSum Δ := by
              simp [durSum]
            rw [hal, hds, ihc2, hcap']
            ring
          · intro h0
            rw [hal]
            apply ihc3
            show 0 ≤ round2 (st.capleft - round2 alloc)
            rw [hcap']
            linarith
    · have hal : allocLoop mc date (fuel + 1) st = st := by
        conv_lhs => rw [allocLoop]
        rw [if_neg hg]
      exact ⟨[], by rw [hal]; simp, by simp, by rw [hal], fun j => by rw [hal],
        fun h => ⟨by rw [hal]; exact h, by rw [hal]; simp [durSum], fun h0 => by
          rw [hal]; exact h0⟩⟩

theorem allocLoop_twoDec (mc : ℚ) (date : PDate) (hmc : TwoDec mc) :
    ∀ (fuel : ℕ) (st : GState), TwoDec st.capleft →
      (∀ t ∈ st.topics, TwoDec t.remaining) →
      (∀ t ∈ (allocLoop mc date fuel st).topics, TwoDec t.remaining) ∧
      (∀ p ∈ (allocLoop mc date fuel st).plan, p ∈ st.plan ∨ 0 < p.duration_hours) := by
  intro fuel
  induction fuel with
  | zero =>
    intro st hcap htop
    have hal : allocLoop mc date 0 st = st := by simp [allocLoop]
    rw [hal]
    exact ⟨htop, fun p hp => Or.inl hp⟩
  | succ fuel ih =>
    intro st hcap htop
    by_cases hg : 0 < st.capleft ∧ ∃ t ∈ st.topics, 0 < t.remaining
    · cases hf : findTopic mc st.capleft st.topics st.cti 0 st.topics.length with
      | none =>
        have hal : allocLoop mc date (fuel + 1) st = st := by
          conv_lhs => rw [allocLoop]
          rw [if_pos hg, hf]
        rw [hal]
        exact ⟨htop, fun p hp => Or.inl hp⟩
      | some r =>
        obtain ⟨idx, t, alloc⟩ := r
        obtain ⟨hget, hrem, halloc, hapos⟩ := findTopic_some hf
        have hal : allocLoop mc date (fuel + 1) st = allocLoop mc date fuel
            { plan := st.plan ++ [⟨date, t.topic, round2 alloc, "pending", ""⟩]
              topics := st.topics.set idx
                { t with remaining := round2 (t.remaining - round2 alloc) }
              cti := (idx + 1) % st.topics.length
              capleft := round2 (st.capleft - round2 alloc) } := by
          conv_lhs => rw [allocLoop]
          rw [if_pos hg, hf]
        have hrem2 : TwoDec t.remaining := htop t (List.get?_mem hget)
        have halloc2 : TwoDec alloc := by
          rw [halloc, pymin_eq, pymin_eq, pymin_eq]
          exact twoDec_min hrem2 (twoDec_min (twoDec_min hmc hcap) hcap)
        have hr2 : round2 alloc = alloc := round2_eq_self halloc2
        have htopmid : ∀ t' ∈ st.topics.set idx
            { t with remaining := round2 (t.remaining - round2 alloc) },
            TwoDec t'.remaining := by
          intro t' ht'
          rcases List.mem_or_eq_of_mem_set ht' with h | h
          · exact htop t' h
          · rw [h]
            exact twoDec_round2 _
        obtain ⟨ih1, ih2⟩ := ih
          { plan := st.plan ++ [⟨date, t.topic, round2 alloc, "pending", ""⟩]
            topics := st.topics.set idx
              { t with remaining := round2 (t.remaining - round2 alloc) }
            cti := (idx + 1) % st.topics.length
            capleft := round2 (st.capleft - round2 alloc) }
          (twoDec_round2 _) htopmid
        rw [hal]
        refine ⟨ih1, ?_⟩
        intro p hp
        rcases ih2 p hp with hp' | hp'
        · rcases List.mem_append.mp hp' with h | h
          · exact Or.inl h
          · right
            have hpe : p = ⟨date, t.topic, round2 alloc, "pending", ""⟩ := by
              simpa using h
            rw [hpe]
            show 0 < round2 alloc
            rw [hr2]
            exact hapos
        · exact Or.inr hp'
    · have hal : allocLoop mc date (fuel + 1) st = st := by
        conv_lhs => rw [allocLoop]
        rw [if_neg hg]
      rw [hal]
      exact ⟨htop, fun p hp => Or.inl hp⟩

theorem nodup_topic_ne {topics0 : List Topic} (hnd : (topics0.map Topic.topic).Nodup)
    {i j : ℕ} {a b : Topic} (ha : topics0.get? i = some a) (hb : topics0.get? j = some b)
    (hij : i ≠ j) : a.topic ≠ b.topic := by
  intro he
  have hma : (topics0.map Topic.topic).get? i = some a.topic := by
    rw [List.get?_map, ha]; rfl
  have hmb : (topics0.map Topic.topic).get? j = some b.topic := by
    rw [List.get?_map, hb]; rfl
  have hi : i < (topics0.map Topic.topic).length := by
    by_contra hcon
    rw [List.get?_eq_none.mpr (by omega)] at hma
    exact absurd hma (by simp)
  exact hij (List.get?_inj hi hnd (by rw [hma, hmb, he]))

theorem concreteAlloc_eq_zero {nm : String} {l : List Session}
    (h : ∀ s ∈ l, s.topic ≠ nm ∨ s.date = PDate.unscheduled) :
    concreteAlloc nm l = 0 := by
  have hf : l.filter (fun s => decide (s.topic = nm) && decide (s.date ≠ PDate.unscheduled))
      = [] := by
    apply List.filter_eq_nil.mpr
    intro s hs
    rcases h s hs with h' | h'
    · simp [h']
    · simp [h']
  unfold concreteAlloc durSum
  rw [hf]
  rfl

theorem tinv_append_others {topics0 : List Topic} {plan : List Session}
    {topics : List Topic} (hinv : TInv topics0 plan topics) {Δ : List Session}
    (hΔ : ∀ s ∈ Δ, ∀ t0 ∈ topics0, s.topic ≠ t0.topic ∨ s.date = PDate.unscheduled) :
    TInv topics0 (plan ++ Δ) topics := by
  obtain ⟨hlen, hinv⟩ := hinv
  refine ⟨hlen, ?_⟩
  intro j t t0 ht ht0
  obtain ⟨h1, h2, h3⟩ := hinv j t t0 ht ht0
  have hca : concreteAlloc t0.topic (plan ++ Δ) = concreteAlloc t0.topic plan := by
    rw [concreteAlloc_append,
      concreteAlloc_eq_zero (fun s hs => hΔ s hs t0 (List.get?_mem ht0))]
    ring
  rw [hca]
  exact ⟨h1, h2, h3⟩

theorem allocLoop_tinv (mc : ℚ) (date : PDate) (hdate : date ≠ PDate.unscheduled)
    {topics0 : List Topic} (hnd : (topics0.map Topic.topic).Nodup) :
    ∀ (fuel : ℕ) (st : GState), TInv topics0 st.plan st.topics →
      TInv topics0 (allocLoop mc date fuel st).plan (allocLoop mc date fuel st).topics := by
  intro fuel
  induction fuel with
  | zero =>
    intro st hinv
    have hal : allocLoop mc date 0 st = st := by simp [allocLoop]
    rw [hal]
    exact hinv
  | succ fuel ih =>
    intro st hinv
    by_cases hg : 0 < st.capleft ∧ ∃ t ∈ st.topics, 0 < t.remaining
    · cases hf : findTopic mc st.capleft st.topics st.cti 0 st.topics.length with
      | none =>
        have hal : allocLoop mc date (fuel + 1) st = st := by
          conv_lhs => rw [allocLoop]
          rw [if_pos hg, hf]
        rw [hal]
        exact hinv
      | some r =>
        obtain ⟨idx, t, alloc⟩ := r
        obtain ⟨hget, hrem, halloc, hapos⟩ := findTopic_some hf
        have hal : allocLoop mc date (fuel + 1) st = allocLoop mc date fuel
            { plan := st.plan ++ [⟨date, t.topic, round2 alloc, "pending", ""⟩]
              topics := st.topics.set idx
                { t with remaining := round2 (t.remaining - round2 alloc) }
              cti := (idx + 1) % st.topics.length
              capleft := round2 (st.capleft - round2 alloc) } := by
          conv_lhs => rw [allocLoop]
          rw [if_pos hg, hf]
        rw [hal]
        apply ih
        obtain ⟨hlen, hj⟩ := hinv
        have hidx : idx < st.topics.length := by
          by_contra hcon
          rw [List.get?_eq_none.mpr (by omega)] at hget
          exact absurd hget (by simp)
        have hidx0 : idx < topics0.length := by omega
        obtain ⟨t0i, hgeti⟩ : ∃ t0i, topics0.get? idx = some t0i := by
          cases hg0 : topics0.get? idx with
          | none =>
            rw [List.get?_eq_none] at hg0
            omega
          | some x => exact ⟨x, rfl⟩
        obtain ⟨h1i, h2i, h3i⟩ := hj idx t t0i hget hgeti
        have hale : alloc ≤ t.remaining := by
          rw [halloc, pymin_eq]; exact min_le_left _ _
        have herr := round2_err alloc
        have hremnn : -(1/200) ≤ t.remaining - round2 alloc := by
          rw [abs_le] at herr
          linarith
        constructor
        · show (st.topics.set idx _).length = topics0.length
          rw [List.length_set]
          exact hlen
        · intro j t' t0 ht' ht0
          by_cases hji : j = idx
          · subst hji
            rw [List.get?_set_eq, hget] at ht'
            have ht'e : t' = { t with remaining := round2 (t.remaining - round2 alloc) } := by
              simpa using ht'.symm
            have ht00 : t0 = t0i := by
              rw [ht0] at hgeti
              exact Option.some.inj hgeti
            subst ht00
            have htopic : t'.topic = t0.topic := by
              rw [ht'e]
              exact h1i
            have hremt' : t'.remaining = round2 (t.remaining - round2 alloc) := by
              rw [ht'e]
            have hca : concreteAlloc t0.topic
                (st.plan ++ [⟨date, t.topic, round2 alloc, "pending", ""⟩]) =
                concreteAlloc t0.topic st.plan + round2 alloc := by
              rw [concreteAlloc_append, concreteAlloc_singleton]
              rw [if_pos ⟨h1i, by rw [show (⟨date, t.topic, round2 alloc, "pending", ""⟩ :
                Session).date = date from rfl]; exact hdate⟩]
            refine ⟨htopic, ?_, ?_⟩
            · rw [hremt']
              exact round2_nonneg hremnn
            · right
              refine ⟨hremt' ▸ twoDec_round2 _, ?_⟩
              rcases h3i with ⟨hA0, hre⟩ | ⟨htd, hb⟩
              · have he := round2_err (t.remaining - round2 alloc)
                rw [hre] at he
                rw [hca, hremt', hA0, hre]
                rw [abs_le] at he ⊢
                constructor <;> linarith [he.1, he.2]
              · have hfix : round2 (t.remaining - round2 alloc) =
                    t.remaining - round2 alloc :=
                  round2_eq_self (twoDec_sub htd (twoDec_round2 alloc))
                rw [hca, hremt', hfix]
                have : concreteAlloc t0.topic st.plan + round2 alloc +
                    (t.remaining - round2 alloc) - t0.remaining =
                    concreteAlloc t0.topic st.plan + t.remaining - t0.remaining := by
                  ring
                rw [this]
                exact hb
          · rw [List.get?_set_ne _ _ (fun hh => hji hh.symm)] at ht'
            obtain ⟨h1, h2, h3⟩ := hj j t' t0 ht' ht0
            have hne : t0i.topic ≠ t0.topic := nodup_topic_ne hnd hgeti ht0
              (fun hh => hji hh.symm)
            have hca : concreteAlloc t0.topic
                (st.plan ++ [⟨date, t.topic, round2 alloc, "pending", ""⟩]) =
                concreteAlloc t0.topic st.plan := by
              rw [concreteAlloc_append, concreteAlloc_singleton,
                if_neg (by
                  intro hcon
                  exact hne (by rw [← h1i]; exact hcon.1))]
              ring
            rw [hca]
            exact ⟨h1, h2, h3⟩
    · have hal : allocLoop mc date (fuel + 1) st = st := by
        conv_lhs => rw [allocLoop]
        rw [if_neg hg]
      rw [hal]
      exact hinv

theorem reviewStep_spec (re : ℕ) (b : ℚ) (date : PDate) (plan : List Session)
    (off : ℕ) :
    ∃ Δ : List Session,
      (reviewStep re b date plan off).1 = plan ++ Δ ∧
      (∀ p ∈ Δ, p.date = date ∧ p.status = "pending" ∧
        p.topic = "Review & Practice" ∧
        p.duration_hours = round2 p.duration_hours ∧ 0 ≤ p.duration_hours) ∧
      (TwoDec b → TwoDec (reviewStep re b date plan off).2 ∧
        durSum Δ + (reviewStep re b date plan off).2 = b ∧
        ∀ p ∈ Δ, 0 < p.duration_hours) ∧
      (0 ≤ b → 0 ≤ (reviewStep re b date plan off).2) := by
  unfold reviewStep
  split_ifs with h1 h2
  · refine ⟨[⟨date, "Review & Practice", round2 (pymin 1 b), "pending",
      "Periodic review day"⟩], rfl, ?_, ?_, ?_⟩
    · intro p hp
      have hpe : p = ⟨date, "Review & Practice", round2 (pymin 1 b), "pending",
          "Periodic review day"⟩ := by simpa using hp
      rw [hpe]
      exact ⟨rfl, rfl, rfl, (round2_idem _).symm, round2_nonneg (by linarith)⟩
    · intro hb
      have hmin : TwoDec (pymin 1 b) := by
        rw [pymin_eq]
        exact twoDec_min twoDec_one hb
      refine ⟨twoDec_sub hb hmin, ?_, ?_⟩
      · show durSum [_] + (b - pymin 1 b) = b
        have hds : durSum [(⟨date, "Review & Practice", round2 (pymin 1 b), "pending",
            "Periodic review day"⟩ : Session)] = round2 (pymin 1 b) := by
          simp [durSum]
        rw [hds, round2_eq_self hmin]
        ring
      · intro p hp
        have hpe : p = ⟨date, "Review & Practice", round2 (pymin 1 b), "pending",
            "Periodic review day"⟩ := by simpa using hp
        rw [hpe]
        show 0 < round2 (pymin 1 b)
        rw [round2_eq_self hmin]
        exact h2
    · intro hb0
      show 0 ≤ b - pymin 1 b
      have h := min_le_right (1 : ℚ) b
      rw [pymin_eq]
      linarith
  · exact ⟨[], by simp, by simp, fun hb => ⟨hb, by simp [durSum], by simp⟩, fun h => h⟩
  · exact ⟨[], by simp, by simp, fun hb => ⟨hb, by simp [durSum], by simp⟩, fun h => h⟩

theorem processDay_spec (re : ℕ) (mc b : ℚ) (start : ℤ) (st : DayState) (off : ℕ) :
    ∃ Δ : List Session,
      (processDay re mc b start st off).plan = st.plan ++ Δ ∧
      (∀ p ∈ Δ, p.date = PDate.day (start + off) ∧ p.status = "pending" ∧
        p.duration_hours = round2 p.duration_hours ∧ 0 ≤ p.duration_hours) ∧
      (processDay re mc b start st off).topics.length = st.topics.length ∧
      (∀ j : ℕ, ((processDay re mc b start st off).topics.get? j).map Topic.topic =
        (st.topics.get? j).map Topic.topic) ∧
      (TwoDec b → 0 ≤ b → durSum Δ ≤ b) := by
  obtain ⟨Δr, hr1, hr2, hr3, hr4⟩ := reviewStep_spec re b (PDate.day (start + off))
    st.plan off
  unfold processDay
  split_ifs with hg
  · obtain ⟨Δa, ha1, ha2, ha3, ha4, ha5⟩ := allocLoop_spec mc (PDate.day (start + off))
      (st.topics.length * 4)
      ⟨(reviewStep re b (PDate.day (start + off)) st.plan off).1, st.topics, st.cti,
       (reviewStep re b (PDate.day (start + off)) st.plan off).2⟩
    dsimp only at ha1 ha3 ha4 ha5
    refine ⟨Δr ++ Δa, ?_, ?_, ?_, ?_, ?_⟩
    · show (allocLoop _ _ _ _).plan = _
      rw [ha1, hr1, List.append_assoc]
    · intro p hp
      rcases List.mem_append.mp hp with h | h
      · obtain ⟨hd, hs, _, hfix, hnn⟩ := hr2 p h
        exact ⟨hd, hs, hfix, hnn⟩
      · exact ha2 p h
    · exact ha3
    · exact ha4
    · intro hb2 hb0
      obtain ⟨hcd, hsum, _⟩ := hr3 hb2
      obtain ⟨hfd, hdsum, hpos⟩ := ha5 hcd
      have h0 : 0 ≤ (reviewStep re b (PDate.day (start + off)) st.plan off).2 := hr4 hb0
      have hfin : 0 ≤ (allocLoop mc (PDate.day (start + off)) (st.topics.length * 4)
          ⟨(reviewStep re b (PDate.day (start + off)) st.plan off).1, st.topics, st.cti,
           (reviewStep re b (PDate.day (start + off)) st.plan off).2⟩).capleft :=
        hpos h0
      rw [durSum_append]
      linarith
  · refine ⟨Δr, hr1, ?_, rfl, fun j => rfl, ?_⟩
    · intro p hp
      obtain ⟨hd, hs, _, hfix, hnn⟩ := hr2 p hp
      exact ⟨hd, hs, hfix, hnn⟩
    · intro hb2 hb0
      obtain ⟨hcd, hsum, _⟩ := hr3 hb2
      have h0 : 0 ≤ (reviewStep re b (PDate.day (start + off)) st.plan off).2 := hr4 hb0
      linarith

theorem processDay_twoDec (re : ℕ) (mc b : ℚ) (start : ℤ) (hmc : TwoDec mc)
    (hb : TwoDec b) (st : DayState) (off : ℕ)
    (htop : ∀ t ∈ st.topics, TwoDec t.remaining) :
    (∀ t ∈ (processDay re mc b start st off).topics, TwoDec t.remaining) ∧
    (∀ p ∈ (processDay re mc b start st off).plan,
      p ∈ st.plan ∨ 0 < p.duration_hours) := by
  obtain ⟨Δr, hr1, hr2, hr3, hr4⟩ := reviewStep_spec re b (PDate.day (start + off))
    st.plan off
  obtain ⟨hcd, _, hrpos⟩ := hr3 hb
  unfold processDay
  split_ifs with hg
  · obtain ⟨ha1, ha2⟩ := allocLoop_twoDec mc (PDate.day (start + off)) hmc
      (st.topics.length * 4)
      ⟨(reviewStep re b (PDate.day (start + off)) st.plan off).1, st.topics, st.cti,
       (reviewStep re b (PDate.day (start + off)) st.plan off).2⟩
      hcd htop
    dsimp only at ha1 ha2
    refine ⟨ha1, ?_⟩
    intro p hp
    rcases ha2 p hp with h | h
    · rw [hr1] at h
      rcases List.mem_append.mp h with h' | h'
      · exact Or.inl h'
      · exact Or.inr (hrpos p h')
    · exact Or.inr h
  · refine ⟨htop, ?_⟩
    intro p hp
    have hp' : p ∈ (reviewStep re b (PDate.day (start + off)) st.plan off).1 := hp
    rw [hr1] at hp'
    rcases List.mem_append.mp hp' with h' | h'
    · exact Or.inl h'
    · exact Or.inr (hrpos p h')

theorem processDay_tinv (re : ℕ) (mc b : ℚ) (start : ℤ) {topics0 : List Topic}
    (hnd : (topics0.map Topic.topic).Nodup)
    (hrev : ∀ t0 ∈ topics0, t0.topic ≠ "Review & Practice")
    (st : DayState) (off : ℕ) (hinv : TInv topics0 st.plan st.topics) :
    TInv topics0 (processDay re mc b start st off).plan
      (processDay re mc b start st off).topics := by
  obtain ⟨Δr, hr1, hr2, hr3, hr4⟩ := reviewStep_spec re b (PDate.day (start + off))
    st.plan off
  have hinv1 : TInv topics0 (reviewStep re b (PDate.day (start + off)) st.plan off).1
      st.topics := by
    rw [hr1]
    apply tinv_append_others hinv
    intro s hs t0 ht0
    left
    rw [(hr2 s hs).2.2.1]
    exact fun hh => hrev t0 ht0 hh.symm
  unfold processDay
  split_ifs with hg
  · have := allocLoop_tinv mc (PDate.day (start + off)) (by simp) hnd
      (st.topics.length * 4)
      ⟨(reviewStep re b (PDate.day (start + off)) st.plan off).1, st.topics, st.cti,
       (reviewStep re b (PDate.day (start + off)) st.plan off).2⟩
      hinv1
    exact this
  · exact hinv1

theorem foldl_range_succ {α : Type} (f : α → ℕ → α) (init : α) (n : ℕ) :
    (List.range (n + 1)).foldl f init = f ((List.range n).foldl f init) n := by
  rw [List.range_succ, List.foldl_append]
  rfl

theorem genFold_struct (re : ℕ) (mc b : ℚ) (start : ℤ) (topics0 : List Topic) :
    ∀ n : ℕ,
      (∀ p ∈ ((List.range n).foldl (processDay re mc b start) ⟨[], topics0, 0⟩).plan,
        (∃ m : ℤ, p.date = PDate.day m ∧ start ≤ m ∧ m < start + n) ∧
        p.status = "pending" ∧ p.duration_hours = round2 p.duration_hours ∧
        0 ≤ p.duration_hours) ∧
      ((List.range n).foldl (processDay re mc b start) ⟨[], topics0, 0⟩).topics.length =
        topics0.length ∧
      (∀ j : ℕ,
        (((List.range n).foldl (processDay re mc b start)
          ⟨[], topics0, 0⟩).topics.get? j).map Topic.topic =
        (topics0.get? j).map Topic.topic) := by
  intro n
  induction n with
  | zero =>
    refine ⟨?_, rfl, fun j => rfl⟩
    intro p hp
    exact absurd hp (by simp)
  | succ n ihn =>
    rw [foldl_range_succ]
    obtain ⟨hp, hl, hn⟩ := ihn
    obtain ⟨Δ, h1, h2, h3, h4, h5⟩ := processDay_spec re mc b start
      ((List.range n).foldl (processDay re mc b start) ⟨[], topics0, 0⟩) n
    refine ⟨?_, by rw [h3]; exact hl, fun j => by rw [h4 j]; exact hn j⟩
    intro p hpp
    rw [h1] at hpp
    rcases List.mem_append.mp hpp with hold | hnew
    · obtain ⟨⟨m, hm1, hm2, hm3⟩, rest⟩ := hp p hold
      exact ⟨⟨m, hm1, hm2, by push_cast at hm3 ⊢; omega⟩, rest⟩
    · obtain ⟨hd, hs, hfix, hnn⟩ := h2 p hnew
      refine ⟨⟨start + n, hd, by omega, by push_cast; omega⟩, hs, hfix, hnn⟩

theorem genFold_cap (re : ℕ) (mc b : ℚ) (start : ℤ) (topics0 : List Topic)
    (hb2 : TwoDec b) (hb0 : 0 ≤ b) :
    ∀ (n : ℕ) (d : ℤ),
      durOn d ((List.range n).foldl (processDay re mc b start) ⟨[], topics0, 0⟩).plan
        ≤ b := by
  intro n
  induction n with
  | zero =>
    intro d
    have : durOn d (([] : List Session)) = 0 := rfl
    simpa [this] using hb0
  | succ n ihn =>
    intro d
    rw [foldl_range_succ]
    obtain ⟨Δ, h1, h2, h3, h4, h5⟩ := processDay_spec re mc b start
      ((List.range n).foldl (processDay re mc b start) ⟨[], topics0, 0⟩) n
    rw [h1, durOn_append]
    by_cases hd : d = start + n
    · have hold : durOn d ((List.range n).foldl (processDay re mc b start)
          ⟨[], topics0, 0⟩).plan = 0 := by
        apply durOn_eq_zero
        intro p hp hcon
        obtain ⟨⟨m, hm1, _, hm3⟩, _⟩ := (genFold_struct re mc b start topics0 n).1 p hp
        rw [hm1] at hcon
        have : m = d := by injection hcon
        omega
      have hΔ : durOn d Δ = durSum Δ := by
        apply durOn_eq_durSum
        intro p hp
        rw [(h2 p hp).1, hd]
      rw [hold, hΔ]
      have := h5 hb2 hb0
      linarith
    · have hΔ0 : durOn d Δ = 0 := by
        apply durOn_eq_zero
        intro p hp hcon
        rw [(h2 p hp).1] at hcon
        have : start + (n : ℤ) = d := by injection hcon
        exact hd this.symm
      rw [hΔ0]
      have := ihn d
      linarith

theorem genFold_twoDec (re : ℕ) (mc b : ℚ) (start : ℤ) (topics0 : List Topic)
    (hmc : TwoDec mc) (hb : TwoDec b)
    (ht0 : ∀ t ∈ topics0, TwoDec t.remaining) :
    ∀ n : ℕ,
      (∀ t ∈ ((List.range n).foldl (processDay re mc b start) ⟨[], topics0, 0⟩).topics,
        TwoDec t.remaining) ∧
      (∀ p ∈ ((List.range n).foldl (processDay re mc b start) ⟨[], topics0, 0⟩).plan,
        0 < p.duration_hours) := by
  intro n
  induction n with
  | zero =>
    refine ⟨ht0, ?_⟩
    intro p hp
    exact absurd hp (by simp)
  | succ n ihn =>
    rw [foldl_range_succ]
    obtain ⟨iht, ihp⟩ := ihn
    obtain ⟨h1, h2⟩ := processDay_twoDec re mc b start hmc hb
      ((List.range n).foldl (processDay re mc b start) ⟨[], topics0, 0⟩) n iht
    refine ⟨h1, ?_⟩
    intro p hp
    rcases h2 p hp with h | h
    · exact ihp p h
    · exact h

theorem genFold_tinv (re : ℕ) (mc b : ℚ) (start : ℤ) {topics0 : List Topic}
    (hnd : (topics0.map Topic.topic).Nodup)
    (hrev : ∀ t0 ∈ topics0, t0.topic ≠ "Review & Practice")
    (hpos0 : ∀ t ∈ topics0, 0 ≤ t.remaining) :
    ∀ n : ℕ,
      TInv topics0 ((List.range n).foldl (processDay re mc b start)
        ⟨[], topics0, 0⟩).plan
        ((List.range n).foldl (processDay re mc b start) ⟨[], topics0, 0⟩).topics := by
  intro n
  induction n with
  | zero =>
    refine ⟨rfl, ?_⟩
    intro j t t0 ht ht0
    have ht' : topics0.get? j = some t := ht
    rw [ht'] at ht0
    obtain rfl : t = t0 := Option.some.inj ht0
    refine ⟨rfl, hpos0 t (List.get?_mem ht'), Or.inl ⟨rfl, rfl⟩⟩
  | succ n ihn =>
    rw [foldl_range_succ]
    exact processDay_tinv re mc b start hnd hrev _ n ihn

theorem generate_plan_ok_eq (re : ℕ) (mc : ℚ) (syl : List SyllabusItem) (s e : ℤ)
    (b : ℚ) (h : s < e) :
    generate_plan re mc syl s e b = .ok
      ((genFin re mc syl s e b).plan ++ genUns re mc syl s e b,
       decide (((e - s : ℤ) : ℚ) * b < ((normalize_syllabus syl).map Topic.remaining).sum),
       ((normalize_syllabus syl).map Topic.remaining).sum,
       ((e - s : ℤ) : ℚ) * b) := by
  unfold generate_plan
  rw [if_neg (by omega), if_neg (by omega)]

theorem generate_plan_ok_lt {re : ℕ} {mc : ℚ} {syl : List SyllabusItem} {s e : ℤ}
    {b : ℚ} {X : List Session × Bool × ℚ × ℚ}
    (hok : generate_plan re mc syl s e b = .ok X) : s < e := by
  by_contra h
  unfold generate_plan at hok
  rw [if_pos (by omega)] at hok
  exact absurd hok (by simp)

theorem generate_plan_plan_eq {re : ℕ} {mc : ℚ} {syl : List SyllabusItem} {s e : ℤ}
    {b : ℚ} {plan : List Session} {flag : Bool} {tot cap : ℚ}
    (hok : generate_plan re mc syl s e b = .ok (plan, flag, tot, cap)) :
    plan = (genFin re mc syl s e b).plan ++ genUns re mc syl s e b := by
  have h := generate_plan_ok_lt hok
  rw [generate_plan_ok_eq re mc syl s e b h] at hok
  exact (congrArg Prod.fst (Except.ok.inj hok)).symm

theorem genFin_eq (re : ℕ) (mc : ℚ) (syl : List SyllabusItem) (s e : ℤ) (b : ℚ) :
    genFin re mc syl s e b =
      (List.range (e - s).toNat).foldl (processDay re mc b s)
        ⟨[], normalize_syllabus syl, 0⟩ := rfl

theorem unschedAlloc_entries_zero {nm : String} {ts : List Topic}
    (h : ∀ u ∈ ts, u.topic ≠ nm) :
    unschedAlloc nm ((ts.filter (fun t => decide ((1:ℚ)/10000 < t.remaining))).map
      (fun t => ⟨PDate.unscheduled, t.topic, round2 t.remaining, "pending",
        overflowNote⟩)) = 0 := by
  have hf : ((ts.filter (fun t => decide ((1:ℚ)/10000 < t.remaining))).map
      (fun t => (⟨PDate.unscheduled, t.topic, round2 t.remaining, "pending",
        overflowNote⟩ : Session))).filter
      (fun s => decide (s.topic = nm) && decide (s.date = PDate.unscheduled)) = [] := by
    apply List.filter_eq_nil.mpr
    intro s hs
    obtain ⟨t, ht, hts⟩ := List.mem_map.mp hs
    have htm : t ∈ ts := List.mem_of_mem_filter ht
    rw [← hts]
    simp [h t htm]
  unfold unschedAlloc durSum
  rw [hf]
  rfl

theorem unschedAlloc_entries {nm : String} :
    ∀ (ts : List Topic), (ts.map Topic.topic).Nodup →
    ∀ (j : ℕ) (tj : Topic), ts.get? j = some tj → tj.topic = nm →
    unschedAlloc nm ((ts.filter (fun t => decide ((1:ℚ)/10000 < t.remaining))).map
      (fun t => ⟨PDate.unscheduled, t.topic, round2 t.remaining, "pending",
        overflowNote⟩)) =
      if (1:ℚ)/10000 < tj.remaining then round2 tj.remaining else 0 := by
  intro ts
  induction ts with
  | nil => intro _ j tj hj; exact absurd hj (by simp)
  | cons t ts ih =>
    intro hnd j tj hj hnm
    have hnd' : (ts.map Topic.topic).Nodup := by
      rw [List.map_cons] at hnd
      exact hnd.of_cons
    have hhead : t.topic ∉ ts.map Topic.topic := by
      rw [List.map_cons] at hnd
      exact (List.nodup_cons.mp hnd).1
    cases j with
    | zero =>
      obtain rfl : t = tj := by simpa using hj
      have htail : ∀ u ∈ ts, u.topic ≠ nm := by
        intro u hu hcon
        apply hhead
        rw [hnm]
        exact hcon ▸ List.mem_map_of_mem Topic.topic hu
      by_cases hp : (1:ℚ)/10000 < t.remaining
      · rw [List.filter_cons_of_pos (by simpa using hp), List.map_cons]
        have hsplit : (⟨PDate.unscheduled, t.topic, round2 t.remaining, "pending",
            overflowNote⟩ : Session) ::
            ((ts.filter (fun t => decide ((1:ℚ)/10000 < t.remaining))).map
              (fun t => ⟨PDate.unscheduled, t.topic, round2 t.remaining, "pending",
                overflowNote⟩)) =
            [⟨PDate.unscheduled, t.topic, round2 t.remaining, "pending", overflowNote⟩]
            ++ ((ts.filter (fun t => decide ((1:ℚ)/10000 < t.remaining))).map
              (fun t => ⟨PDate.unscheduled, t.topic, round2 t.remaining, "pending",
                overflowNote⟩)) := rfl
        rw [hsplit, unschedAlloc_append, unschedAlloc_singleton,
          if_pos ⟨hnm, rfl⟩, unschedAlloc_entries_zero htail, if_pos hp]
        ring
      · rw [List.filter_cons_of_neg (by simpa using hp),
          unschedAlloc_entries_zero htail, if_neg hp]
    | succ j =>
      have hj' : ts.get? j = some tj := by simpa using hj
      have hne : t.topic ≠ nm := by
        intro hcon
        apply hhead
        rw [hcon, ← hnm]
        exact List.mem_map_of_mem Topic.topic (List.get?_mem hj')
      by_cases hp : (1:ℚ)/10000 < t.remaining
      · rw [List.filter_cons_of_pos (by simpa using hp), List.map_cons]
        have hsplit : (⟨PDate.unscheduled, t.topic, round2 t.remaining, "pending",
            overflowNote⟩ : Session) ::
            ((ts.filter (fun t => decide ((1:ℚ)/10000 < t.remaining))).map
              (fun t => ⟨PDate.unscheduled, t.topic, round2 t.remaining, "pending",
                overflowNote⟩)) =
            [⟨PDate.unscheduled, t.topic, round2 t.remaining, "pending", overflowNote⟩]
            ++ ((ts.filter (fun t => decide ((1:ℚ)/10000 < t.remaining))).map
              (fun t => ⟨PDate.unscheduled, t.topic, round2 t.remaining, "pending",
                overflowNote⟩)) := rfl
        rw [hsplit, unschedAlloc_append, unschedAlloc_singleton,
          if_neg (fun hc => hne hc.1), ih hnd' j tj hj' hnm]
        ring
      · rw [List.filter_cons_of_neg (by simpa using hp)]
        exact ih hnd' j tj hj' hnm

/-- C1 (amended): provided the daily-hour budget is non-negative and
expressible with two decimals, every concrete date of a generated plan
carries at most the budget plus the 1e-6 tolerance, and `reschedule_missed`
preserves this bound for any plan whose missed-status sessions are all
dated before today (as holds for generated and reconciled plans). -/
theorem daily_budget_respected (re : ℕ) (mc : ℚ) (syl : List SyllabusItem)
    (s e : ℤ) (b : ℚ) (hb2 : TwoDec b) (hb0 : 0 ≤ b) :
    (∀ (plan : List Session) (flag : Bool) (tot cap : ℚ),
      generate_plan re mc syl s e b = .ok (plan, flag, tot, cap) →
      ∀ d : ℤ, durOn d plan ≤ b + 1/1000000) ∧
    (∀ (today : ℤ) (plan : List Session) (sd ed : ℤ),
      (∀ d : ℤ, durOn d plan ≤ b + 1/1000000) →
      (∀ p ∈ plan, p.status = "missed" → ∀ n : ℤ, p.date = PDate.day n → n < today) →
      ∀ d : ℤ, durOn d (reschedule_missed today plan sd ed b).1 ≤ b + 1/1000000) := by
  constructor
  · intro plan flag tot cap hok d
    have hplan := generate_plan_plan_eq hok
    rw [hplan, durOn_append]
    have h1 : durOn d (genFin re mc syl s e b).plan ≤ b := by
      rw [genFin_eq]
      exact genFold_cap re mc b s (normalize_syllabus syl) hb2 hb0 (e - s).toNat d
    have h2 : durOn d (genUns re mc syl s e b) = 0 := by
      apply durOn_eq_zero
      intro p hp
      unfold genUns at hp
      obtain ⟨t, _, ht⟩ := List.mem_map.mp hp
      rw [← ht]
      simp
    rw [h2]
    linarith
  · intro today plan sd ed h1 h2
    exact reschedule_missed_preserves_daily today plan sd ed b h1 h2

/-- C2: for every topic of the normalized syllabus (with distinct names,
none equal to the reserved review label, and non-negative efforts), the
hours allocated on concrete dates plus any `"UNSCHEDULED"` overflow equal
the topic's original estimated effort within half of the 2-decimal
rounding step. -/
theorem effort_conserved (re : ℕ) (mc : ℚ) (syl : List SyllabusItem) (s e : ℤ)
    (b : ℚ) (plan : List Session) (flag : Bool) (tot cap : ℚ)
    (hok : generate_plan re mc syl s e b = .ok (plan, flag, tot, cap))
    (hnd : ((normalize_syllabus syl).map Topic.topic).Nodup)
    (hrev : ∀ t ∈ normalize_syllabus syl, t.topic ≠ "Review & Practice")
    (hpos : ∀ t ∈ normalize_syllabus syl, 0 ≤ t.remaining) :
    ∀ t0 ∈ normalize_syllabus syl,
      |concreteAlloc t0.topic plan + unschedAlloc t0.topic plan - t0.remaining|
        ≤ 1/200 := by
  intro t0 ht0
  have hplan := generate_plan_plan_eq hok
  obtain ⟨hstr, hlen, hnames⟩ := genFold_struct re mc b s (normalize_syllabus syl)
    (e - s).toNat
  have htinv := genFold_tinv re mc b s hnd hrev hpos (e - s).toNat
  obtain ⟨j, hj⟩ := List.mem_iff_get?.mp ht0
  have hjlen : j < (normalize_syllabus syl).length := by
    by_contra hcon
    rw [List.get?_eq_none.mpr (by omega)] at hj
    exact absurd hj (by simp)
  obtain ⟨tj, htj⟩ : ∃ tj, (genFin re mc syl s e b).topics.get? j = some tj := by
    cases hc : (genFin re mc syl s e b).topics.get? j with
    | none =>
      rw [List.get?_eq_none] at hc
      rw [genFin_eq] at hc
      omega
    | some x => exact ⟨x, rfl⟩
  obtain ⟨hlen2, hjinv⟩ := htinv
  have htj' : ((List.range (e - s).toNat).foldl (processDay re mc b s)
      ⟨[], normalize_syllabus syl, 0⟩).topics.get? j = some tj := htj
  obtain ⟨htop, hnn, hbr⟩ := hjinv j tj t0 htj' hj
  have hbr' : (concreteAlloc t0.topic (genFin re mc syl s e b).plan = 0 ∧
      tj.remaining = t0.remaining) ∨
      (TwoDec tj.remaining ∧
       |concreteAlloc t0.topic (genFin re mc syl s e b).plan + tj.remaining -
         t0.remaining| ≤ 1/200) := hbr
  have hc1 : concreteAlloc t0.topic plan =
      concreteAlloc t0.topic (genFin re mc syl s e b).plan := by
    rw [hplan, concreteAlloc_append]
    have hz : concreteAlloc t0.topic (genUns re mc syl s e b) = 0 := by
      apply concreteAlloc_eq_zero
      intro s' hs'
      unfold genUns at hs'
      obtain ⟨t, _, ht⟩ := List.mem_map.mp hs'
      right
      rw [← ht]
    rw [hz]
    ring
  have hu1 : unschedAlloc t0.topic plan =
      unschedAlloc t0.topic (genUns re mc syl s e b) := by
    rw [hplan, unschedAlloc_append]
    have hz : unschedAlloc t0.topic (genFin re mc syl s e b).plan = 0 := by
      apply unschedAlloc_eq_zero
      intro p hp
      obtain ⟨⟨m, hm, _, _⟩, _⟩ := hstr p hp
      rw [hm]
      simp
    rw [hz, zero_add]
  have hmapeq : (genFin re mc syl s e b).topics.map Topic.topic =
      (normalize_syllabus syl).map Topic.topic := by
    apply List.ext_get?
    intro i
    rw [List.get?_map, List.get?_map]
    exact hnames i
  have hndF : ((genFin re mc syl s e b).topics.map Topic.topic).Nodup := by
    rw [hmapeq]
    exact hnd
  have hgU : genUns re mc syl s e b =
      (((genFin re mc syl s e b).topics.filter
        (fun t => decide ((1:ℚ)/10000 < t.remaining))).map
        (fun t => ⟨PDate.unscheduled, t.topic, round2 t.remaining, "pending",
          overflowNote⟩)) := rfl
  have huns := unschedAlloc_entries ((genFin re mc syl s e b).topics) hndF j tj htj htop
  rw [hc1, hu1, hgU, huns]
  rcases hbr' with ⟨hA0, hre⟩ | ⟨htd, hb2⟩
  · by_cases hcase : (1:ℚ)/10000 < tj.remaining
    · rw [if_pos hcase, hA0, ← hre]
      have he := round2_err tj.remaining
      have hgoal : (0 : ℚ) + round2 tj.remaining - tj.remaining =
          round2 tj.remaining - tj.remaining := by ring
      rw [hgoal]
      exact he
    · rw [if_neg hcase, hA0, ← hre]
      have h1 : tj.remaining ≤ 1/10000 := le_of_not_lt hcase
      rw [abs_le]
      constructor <;> linarith
  · by_cases hcase : (1:ℚ)/10000 < tj.remaining
    · rw [if_pos hcase, round2_eq_self htd]
      exact hb2
    · have h0 : tj.remaining = 0 :=
        twoDec_small_eq_zero htd hnn (le_of_not_lt hcase)
      rw [if_neg hcase]
      rw [h0] at hb2
      exact hb2

/-- C7 (amended): every session `generate_plan` produces has a duration
equal to its own 2-decimal rounding and non-negative; it is strictly
positive whenever the budget, the max-chunk configuration and every
effort estimate are expressible with two decimals. -/
theorem session_durations (re : ℕ) (mc : ℚ) (syl : List SyllabusItem) (s e : ℤ)
    (b : ℚ) (plan : List Session) (flag : Bool) (tot cap : ℚ)
    (hok : generate_plan re mc syl s e b = .ok (plan, flag, tot, cap)) :
    (∀ p ∈ plan, p.duration_hours = round2 p.duration_hours ∧
      0 ≤ p.duration_hours) ∧
    (TwoDec b → TwoDec mc → (∀ t ∈ normalize_syllabus syl, TwoDec t.remaining) →
      ∀ p ∈ plan, 0 < p.duration_hours) := by
  have hplan := generate_plan_plan_eq hok
  constructor
  · intro p hp
    rw [hplan] at hp
    rcases List.mem_append.mp hp with h | h
    · obtain ⟨_, _, hfix, hnn⟩ :=
        (genFold_struct re mc b s (normalize_syllabus syl) (e - s).toNat).1 p h
      exact ⟨hfix, hnn⟩
    · unfold genUns at h
      obtain ⟨t, ht, hts⟩ := List.mem_map.mp h
      have hrem : (1:ℚ)/10000 < t.remaining := by
        have := (List.mem_filter.mp ht).2
        simpa using this
      rw [← hts]
      exact ⟨(round2_idem _).symm, round2_nonneg (by linarith)⟩
  · intro hb hmc hts0 p hp
    rw [hplan] at hp
    obtain ⟨hftops, hfplan⟩ :=
      genFold_twoDec re mc b s (normalize_syllabus syl) hmc hb hts0 (e - s).toNat
    rcases List.mem_append.mp hp with h | h
    · exact hfplan p h
    · unfold genUns at h
      obtain ⟨t, ht, hts⟩ := List.mem_map.mp h
      have hmem := List.mem_filter.mp ht
      have hrem : (1:ℚ)/10000 < t.remaining := by simpa using hmem.2
      have htd : TwoDec t.remaining := hftops t hmem.1
      rw [← hts]
      show 0 < round2 t.remaining
      rw [round2_eq_self htd]
      linarith

/-- C1 counterexample: with daily budget 0.018 (= 9/500) and a single
one-hour topic over one day, the allocation 0.018 is rounded up to 0.02,
so the day carries 0.02 hours, exceeding the budget plus the 1e-6
tolerance. -/
theorem daily_budget_counterexample :
    generate_plan 6 2 [⟨some "A", none, some 1, none, none⟩] 0 1 (9/500) =
      .ok ([⟨PDate.day 0, "A", 1/50, "pending", ""⟩,
            ⟨PDate.unscheduled, "A", 49/50, "pending", overflowNote⟩],
           true, 1, 9/500) ∧
    ¬ durOn 0 [⟨PDate.day 0, "A", 1/50, "pending", ""⟩,
        ⟨PDate.unscheduled, "A", 49/50, "pending", overflowNote⟩] ≤
      9/500 + 1/1000000 := by
  exact ⟨by with_unfolding_all rfl, by with_unfolding_all decide⟩

/-- C1 witness: the amended theorem applied to the empty plan with budget 2. -/
theorem daily_budget_witness :
    durOn 0 (reschedule_missed 0 [] 0 1 2).1 ≤ 2 + 1/1000000 :=
  (daily_budget_respected 6 2 [] 0 1 2 ⟨200, by norm_num⟩ (by norm_num)).2 0 [] 0 1
    (fun d => by norm_num [durOn, durSum]) (by simp) 0

/-- C2 witness: the spec's own example — one high-priority 4-hour topic,
two days, 2 hours per day — allocates exactly 4 hours to it. -/
theorem effort_conserved_witness :
    |concreteAlloc "Algebra"
        [⟨PDate.day 0, "Algebra", 2, "pending", ""⟩,
         ⟨PDate.day 1, "Algebra", 2, "pending", ""⟩] +
      unschedAlloc "Algebra"
        [⟨PDate.day 0, "Algebra", 2, "pending", ""⟩,
         ⟨PDate.day 1, "Algebra", 2, "pending", ""⟩] - (4 : ℚ)| ≤ 1/200 :=
  effort_conserved 6 2 [⟨some "Algebra", none, some 4, none, some "high"⟩] 0 2 2
    [⟨PDate.day 0, "Algebra", 2, "pending", ""⟩,
     ⟨PDate.day 1, "Algebra", 2, "pending", ""⟩] false 4 4
    (by with_unfolding_all rfl) (by with_unfolding_all decide)
    (by with_unfolding_all decide) (by with_unfolding_all decide)
    ⟨"Algebra", 4, "high", 3⟩ (by with_unfolding_all decide)

/-- C3 witness: a pending session dated before today is marked missed. -/
theorem reschedule_missed_marks_witness :
    (Session.mk (PDate.day 1) "A" 1 "missed" "marked missed on 5;").status
      = "missed" :=
  (reschedule_missed_marks 5 [⟨PDate.day 1, "A", 1, "pending", ""⟩] 0 10 2).1
    ⟨PDate.day 1, "A", 1, "missed", "marked missed on 5;"⟩
    (by with_unfolding_all decide) 1 rfl (by decide) (by decide)

/-- C5 witness: equal dates raise `InvalidDateRange`; a later exam date
succeeds. -/
theorem generate_plan_invalidDateRange_witness :
    (generate_plan 6 2 [] 0 0 2 = .error .invalidDateRange ↔ (0:ℤ) ≤ 0) ∧
    (∃ out, generate_plan 6 2 [] 0 1 2 = .ok out) :=
  ⟨(generate_plan_invalidDateRange_iff 6 2 [] 0 0 2).1,
   (generate_plan_invalidDateRange_iff 6 2 [] 0 1 2).2 (by decide)⟩

/-- C6 counterexample: one pending session dated before today with an
already-elapsed window — nothing can be placed (count 0), yet the plan is
mutated (marking plus an `"UNSCHEDULED"` append). -/
theorem zero_placed_counterexample :
    (reschedule_missed 5 [⟨PDate.day 0, "A", 1, "pending", ""⟩] 0 5 2).2 = 0 ∧
    (reschedule_missed 5 [⟨PDate.day 0, "A", 1, "pending", ""⟩] 0 5 2).1 ≠
      [⟨PDate.day 0, "A", 1, "pending", ""⟩] := by
  exact ⟨by with_unfolding_all rfl, by with_unfolding_all decide⟩

/-- C6 witness: the amended theorem at an empty plan (unchanged, count 0)
and at the counterexample input (count 0, only sentinel entries appended). -/
theorem reschedule_missed_zero_placed_witness :
    reschedule_missed 0 [] 0 1 2 = ([], 0) ∧
    ∃ extra : List Session,
      (reschedule_missed 5 [⟨PDate.day 0, "A", 1, "pending", ""⟩] 0 5 2).1 =
        [(⟨PDate.day 0, "A", 1, "pending", ""⟩ : Session)].map (markMissed 5) ++ extra ∧
      ∀ x ∈ extra, x.date = PDate.unscheduled ∧ x.status = "pending" :=
  ⟨(reschedule_missed_zero_placed 0 [] 0 1 2).1 rfl,
   (reschedule_missed_zero_placed 5 [⟨PDate.day 0, "A", 1, "pending", ""⟩] 0 5 2).2
     (by with_unfolding_all rfl)⟩

/-- C7 counterexample: with daily budget 0.001 the allocation guard
`0 < alloc` passes on the unrounded value, but the rounded duration is 0,
so a zero-duration session is emitted. -/
theorem session_durations_counterexample :
    generate_plan 6 2 [⟨some "A", none, some 1, none, none⟩] 0 1 (1/1000) =
      .ok ([⟨PDate.day 0, "A", 0, "pending", ""⟩,
            ⟨PDate.unscheduled, "A", 1, "pending", overflowNote⟩],
           true, 1, 1/1000) ∧
    ∃ p ∈ [(⟨PDate.day 0, "A", 0, "pending", ""⟩ : Session),
           ⟨PDate.unscheduled, "A", 1, "pending", overflowNote⟩],
      ¬ 0 < p.duration_hours := by
  exact ⟨by with_unfolding_all rfl, by with_unfolding_all decide⟩

/-- C7 witness: the amended theorem at the spec's example, instantiated at
its first session. -/
theorem session_durations_witness :
    ((Session.mk (PDate.day 0) "Algebra" 2 "pending" "").duration_hours =
      round2 (Session.mk (PDate.day 0) "Algebra" 2 "pending" "").duration_hours ∧
     0 ≤ (Session.mk (PDate.day 0) "Algebra" 2 "pending" "").duration_hours) ∧
    0 < (Session.mk (PDate.day 0) "Algebra" 2 "pending" "").duration_hours :=
  ⟨(session_durations 6 2 [⟨some "Algebra", none, some 4, none, some "high"⟩] 0 2 2
      [⟨PDate.day 0, "Algebra", 2, "pending", ""⟩,
       ⟨PDate.day 1, "Algebra", 2, "pending", ""⟩] false 4 4
      (by with_unfolding_all rfl)).1
      ⟨PDate.day 0, "Algebra", 2, "pending", ""⟩ (by decide),
   (session_durations 6 2 [⟨some "Algebra", none, some 4, none, some "high"⟩] 0 2 2
      [⟨PDate.day 0, "Algebra", 2, "pending", ""⟩,
       ⟨PDate.day 1, "Algebra", 2, "pending", ""⟩] false 4 4
      (by with_unfolding_all rfl)).2
      ⟨200, by norm_num⟩ ⟨200, by norm_num⟩
      (by
        intro t ht
        have hn : normalize_syllabus [⟨some "Algebra", none, some 4, none, some "high"⟩]
            = [⟨"Algebra", 4, "high", 3⟩] := by with_unfolding_all rfl
        rw [hn] at ht
        have : t = ⟨"Algebra", 4, "high", 3⟩ := by simpa using ht
        rw [this]
        exact ⟨400, by norm_num⟩)
      ⟨PDate.day 0, "Algebra", 2, "pending", ""⟩ (by decide)⟩

/-- C10 witness: an item with empty `topic` and no `name` is skipped. -/
theorem normalize_syllabus_skips_falsy_witness :
    normalize_syllabus ([⟨some "B", none, some 2, none, none⟩] ++
      (⟨some "", none, some 3, none, none⟩ : SyllabusItem) :: []) =
      normalize_syllabus ([⟨some "B", none, some 2, none, none⟩] ++ []) :=
  normalize_syllabus_skips_falsy ⟨some "", none, some 3, none, none⟩
    [⟨some "B", none, some 2, none, none⟩] [] rfl trivial

end StudyAgent
